import Mathlib

/-!
Verification of the numeric text converter (`src/useConverter.ts`).

The converter is configured with a precision and two separator characters and
exposes `toString` (number → string) and `toNumber` (string → number).  We
embed the two operations over `List Char`, model the host's numeric-to-string
output by a structure `Dec` of sign/integer-digits/fraction-digits (the shape
`String(value)` produces for finite numbers in plain decimal notation), and
model the host's `Number()` parser on sign/digit/dot strings by `hostNumber`.

The two configuration-derived regular expressions are modelled with their
actual semantics for single-character separators.  The group-separator
replacement `new RegExp("\\" ++ g, "g")` is `stripGroup`: for most
characters `\g` is an identity escape and removes the literal character,
but the escape letters `b B d D s S w W f n r t v c` keep their regex
meaning (word boundaries remove nothing, `\d` removes the digits, and so
on).  The extraction pattern `([-]?)([0-9]*)([d]?)([0-9]*)` is
`matchExtract`: the class `[d]` is literal for most separators, `[^]`
matches any character, and for `d = ']'` the class `[]` is unmatchable, so
`.match` returns null and the destructuring that follows throws — the
operations are therefore `Except`-valued, with `Except.error` the
uncaught exception (`d = '\\'`, whose class is a syntax error at
construction, is folded into the same error outcome).  Theorems about the
configurations on which both regexes act literally carry the
`Options.RegexLiteral` hypothesis.
-/

namespace NumConv

/-- Converter options (`Options` in the source); `precision` is the
non-negative number of fraction digits enforced by padding. -/
structure Options where
  precision : Nat
  groupSeparator : Char
  decimalSeparator : Char
deriving DecidableEq

/-- The `defaultOptions` of the source: precision 2, space group separator,
comma decimal separator. -/
def defaultOptions : Options := ⟨2, ' ', ','⟩

/-- A valid configuration: the two separators are single non-digit characters
and are distinct from each other. -/
def Options.Valid (o : Options) : Prop :=
  ¬o.groupSeparator.isDigit ∧ ¬o.decimalSeparator.isDigit ∧
    o.groupSeparator ≠ o.decimalSeparator

instance (o : Options) : Decidable o.Valid := by
  unfold Options.Valid; infer_instance

/-- Removal of every occurrence of the literal character `g`: the behaviour
of the derived group-separator regex when `\g` is an identity escape (see
`stripGroup`), and the stripping described by the specification's words. -/
def removeAllChar (g : Char) (l : List Char) : List Char :=
  l.filter (· ≠ g)

/-- Models `String.prototype.replace('.', d)`: replace the first occurrence
of `'.'` (if any) by `d`. -/
def replaceFirstDot (d : Char) : List Char → List Char
  | [] => []
  | c :: t => if c = '.' then d :: t else c :: replaceFirstDot d t

/-- The four capture groups of the extraction regular expression
`([-]?)([0-9]*)([d]?)([0-9]*)`. -/
structure Parts where
  sign : List Char
  integer : List Char
  separator : List Char
  fraction : List Char
deriving DecidableEq

/-- Models matching `([-]?)([0-9]*)([d]?)([0-9]*)` against a string.  The
pattern can match the empty string, so its first match is always anchored at
index 0: an optional leading `'-'`, a maximal run of ASCII digits, an
optional single occurrence of the decimal separator `d`, and a second
maximal run of ASCII digits. -/
def extract (d : Char) (cs : List Char) : Parts :=
  let sign : List Char := if cs.head? = some '-' then ['-'] else []
  let r1 := if cs.head? = some '-' then cs.tail else cs
  let integer := r1.takeWhile Char.isDigit
  let r2 := r1.dropWhile Char.isDigit
  let separator : List Char := if r2.head? = some d then [d] else []
  let r3 := if r2.head? = some d then r2.tail else r2
  let fraction := r3.takeWhile Char.isDigit
  ⟨sign, integer, separator, fraction⟩

/-- The word characters of the regex class `\w`: ASCII letters, digits and
the underscore. -/
def isWordChar (c : Char) : Bool :=
  c.isDigit || c.isAlpha || c = '_'

/-- The characters of the regex class `\s` (the host's WhiteSpace and
LineTerminator sets). -/
def isJsWhitespace (c : Char) : Bool :=
  c ∈ ['\t', '\n', '\x0B', '\x0C', '\r', ' ', '\u00A0', '\u1680',
    '\u2028', '\u2029', '\u202F', '\u205F', '\u3000', '\uFEFF'] ||
  (0x2000 ≤ c.toNat && c.toNat ≤ 0x200A)

/-- Removal of every occurrence of the two-character sequence backslash-`c`,
which is what the pattern `\c` (with no control letter following) matches. -/
def removeBackslashC : List Char → List Char
  | '\\' :: 'c' :: t => removeBackslashC t
  | c :: t => c :: removeBackslashC t
  | [] => []

/-- The escape letters for which `\g` has a non-literal regex meaning. -/
def isSpecialEscape (g : Char) : Bool :=
  g ∈ ['b', 'B', 'd', 'D', 's', 'S', 'w', 'W', 'f', 'n', 'r', 't', 'v', 'c']

/-- Models `value.replace(new RegExp("\\" ++ g, "g"), "")`, the group
separator stripping, with the pattern's actual meaning: `\b`/`\B` are
zero-width and remove nothing; `\d \D \s \S \w \W` remove the matching
class; `\f \n \r \t \v` remove the control character; `\c` (no control
letter follows in the pattern) matches a literal backslash-`c` pair; every
other single character — punctuation, space, and the remaining letters,
whose escapes are identity escapes — is removed literally. -/
def stripGroup (g : Char) (l : List Char) : List Char :=
  if g = 'b' ∨ g = 'B' then l
  else if g = 'd' then l.filter (fun c => !c.isDigit)
  else if g = 'D' then l.filter (fun c => c.isDigit)
  else if g = 's' then l.filter (fun c => !isJsWhitespace c)
  else if g = 'S' then l.filter (fun c => isJsWhitespace c)
  else if g = 'w' then l.filter (fun c => !isWordChar c)
  else if g = 'W' then l.filter (fun c => isWordChar c)
  else if g = 'f' then l.filter (· ≠ '\x0C')
  else if g = 'n' then l.filter (· ≠ '\n')
  else if g = 'r' then l.filter (· ≠ '\r')
  else if g = 't' then l.filter (· ≠ '\t')
  else if g = 'v' then l.filter (· ≠ '\x0B')
  else if g = 'c' then removeBackslashC l
  else removeAllChar g l

/-- The behaviour of the character class `[d]` built from the decimal
separator: literal for most characters; `[^]` matches any character; for
`d = ']'` the pattern contains the unmatchable empty class `[]`, and for
`d = '\\'` the class is a syntax error at construction — both make every
call fail, which the model folds into the no-match outcome. -/
inductive SepClass where
  | literal
  | anyChar
  | noMatch
deriving DecidableEq

/-- Classify the class `[d]` of the extraction pattern. -/
def sepClass (d : Char) : SepClass :=
  if d = ']' ∨ d = '\\' then .noMatch
  else if d = '^' then .anyChar
  else .literal

/-- Matching `([-]?)([0-9]*)([^]?)([0-9]*)`: the third group greedily takes
whatever single character follows the integer digit run. -/
def extractAny (cs : List Char) : Parts :=
  let sign : List Char := if cs.head? = some '-' then ['-'] else []
  let r1 := if cs.head? = some '-' then cs.tail else cs
  let integer := r1.takeWhile Char.isDigit
  let r2 := r1.dropWhile Char.isDigit
  let separator : List Char := if r2 = [] then [] else r2.take 1
  let r3 := if r2 = [] then [] else r2.tail
  let fraction := r3.takeWhile Char.isDigit
  ⟨sign, integer, separator, fraction⟩

/-- Models `s.match(extractionRegex)`: `none` when the pattern cannot match
(the `.match` call returns null and the caller's array destructuring
throws); otherwise the four capture groups of the first match, which is at
index 0 because the pattern can match the empty string. -/
def matchExtract (d : Char) (cs : List Char) : Option Parts :=
  match sepClass d with
  | .noMatch => none
  | .anyChar => some (extractAny cs)
  | .literal => some (extract d cs)

/-- The configurations on which both derived regular expressions act as
literal single-character matchers: the group separator's escape is an
identity escape and the decimal separator's class is literal. -/
def Options.RegexLiteral (o : Options) : Prop :=
  isSpecialEscape o.groupSeparator = false ∧
    sepClass o.decimalSeparator = SepClass.literal

instance (o : Options) : Decidable o.RegexLiteral := by
  unfold Options.RegexLiteral; infer_instance

theorem stripGroup_eq_removeAll {g : Char} (h : isSpecialEscape g = false)
    (l : List Char) : stripGroup g l = removeAllChar g l := by
  simp only [isSpecialEscape, List.mem_cons, List.not_mem_nil, or_false,
    decide_eq_false_iff_not, not_or] at h
  obtain ⟨h1, h2, h3, h4, h5, h6, h7, h8, h9, h10, h11, h12, h13, h14⟩ := h
  unfold stripGroup
  rw [if_neg (by tauto), if_neg h3, if_neg h4, if_neg h5, if_neg h6,
    if_neg h7, if_neg h8, if_neg h9, if_neg h10, if_neg h11, if_neg h12,
    if_neg h13, if_neg h14]

theorem matchExtract_literal {d : Char} (h : sepClass d = SepClass.literal)
    (cs : List Char) : matchExtract d cs = some (extract d cs) := by
  unfold matchExtract
  rw [h]

/-! ### Generic list lemmas -/

theorem takeWhile_append_all {p : Char → Bool} {a : List Char} (b : List Char)
    (h : ∀ c ∈ a, p c) : (a ++ b).takeWhile p = a ++ b.takeWhile p := by
  induction a with
  | nil => simp
  | cons c t ih =>
      have hc : p c := h c (by simp)
      simp only [List.cons_append, List.takeWhile_cons_of_pos hc, List.cons.injEq,
        true_and]
      exact ih fun x hx => h x (by simp [hx])

theorem dropWhile_append_all {p : Char → Bool} {a : List Char} (b : List Char)
    (h : ∀ c ∈ a, p c) : (a ++ b).dropWhile p = b.dropWhile p := by
  induction a with
  | nil => simp
  | cons c t ih =>
      have hc : p c := h c (by simp)
      simp only [List.cons_append, List.dropWhile_cons_of_pos hc]
      exact ih fun x hx => h x (by simp [hx])

theorem takeWhile_eq_self_of_all {p : Char → Bool} {a : List Char}
    (h : ∀ c ∈ a, p c) : a.takeWhile p = a := by
  have := takeWhile_append_all (p := p) (a := a) [] h
  simpa using this

theorem dropWhile_eq_nil_of_all {p : Char → Bool} {a : List Char}
    (h : ∀ c ∈ a, p c) : a.dropWhile p = [] := by
  have := dropWhile_append_all (p := p) (a := a) [] h
  simpa using this

theorem takeWhile_dropWhile_self (p : Char → Bool) (l : List Char) :
    (l.dropWhile p).takeWhile p = [] := by
  induction l with
  | nil => simp
  | cons c t ih =>
      by_cases hc : p c
      · simpa [List.dropWhile_cons_of_pos hc] using ih
      · simp [List.dropWhile_cons_of_neg hc, List.takeWhile_cons_of_neg hc]

theorem mem_takeWhile_sub {p : Char → Bool} {l : List Char} {c : Char}
    (h : c ∈ l.takeWhile p) : p c := by
  induction l with
  | nil => simp at h
  | cons a t ih =>
      by_cases ha : p a
      · rw [List.takeWhile_cons_of_pos ha, List.mem_cons] at h
        rcases h with h | h
        · exact h ▸ ha
        · exact ih h
      · rw [List.takeWhile_cons_of_neg ha] at h
        simp at h

/-- A digit character is not `'-'`. -/
theorem ne_dash_of_isDigit {c : Char} (h : c.isDigit) : c ≠ '-' := by
  intro hc; subst hc; simp [Char.isDigit] at h

/-- A digit character differs from every non-digit character. -/
theorem ne_of_isDigit_of_not {c g : Char} (h : c.isDigit) (hg : ¬g.isDigit) :
    c ≠ g := by
  intro hc; exact hg (hc ▸ h)

/-! ### The key structural property of `extract` -/

/-- Matching the extraction pattern against a string that is literally
`sign ++ digits ++ (separator ++ digits)?` recovers exactly those pieces,
provided the integer digit run is non-empty and the separator is not a
digit. -/
theorem extract_eq (d : Char) (hd : ¬d.isDigit) (neg : Bool)
    (a b : List Char) (ha : ∀ c ∈ a, c.isDigit) (hb : ∀ c ∈ b, c.isDigit)
    (ha0 : a ≠ []) (hs : Bool) :
    extract d ((if neg then ['-'] else []) ++ a ++ (if hs then d :: b else [])) =
      ⟨if neg then ['-'] else [], a, if hs then [d] else [],
        if hs then b else []⟩ := by
  obtain ⟨c, t, rfl⟩ : ∃ c t, a = c :: t := by
    cases a with
    | nil => exact absurd rfl ha0
    | cons c t => exact ⟨c, t, rfl⟩
  have hc : c.isDigit := ha c (by simp)
  have hcd : c ≠ '-' := ne_dash_of_isDigit hc
  have hdb : ¬(Char.isDigit d = true) := by simpa using hd
  have h1 : (c :: (t ++ d :: b)).takeWhile Char.isDigit = c :: t := by
    rw [← List.cons_append, takeWhile_append_all _ ha,
      List.takeWhile_cons_of_neg hdb]
    simp
  have h2 : (c :: (t ++ d :: b)).dropWhile Char.isDigit = d :: b := by
    rw [← List.cons_append, dropWhile_append_all _ ha,
      List.dropWhile_cons_of_neg hdb]
  have h3 : (c :: t).takeWhile Char.isDigit = c :: t :=
    takeWhile_eq_self_of_all ha
  have h4 : (c :: t).dropWhile Char.isDigit = [] :=
    dropWhile_eq_nil_of_all ha
  cases neg <;> cases hs
  · -- neg = false, hs = false
    show extract d ([] ++ (c :: t) ++ []) = ⟨[], c :: t, [], []⟩
    simp [extract, h3, h4, hcd]
  · -- neg = false, hs = true
    show extract d ([] ++ (c :: t) ++ d :: b) = ⟨[], c :: t, [d], b⟩
    simp [extract, h1, h2, hcd, takeWhile_eq_self_of_all hb]
  · -- neg = true, hs = false
    show extract d (['-'] ++ (c :: t) ++ []) = ⟨['-'], c :: t, [], []⟩
    simp [extract, h3, h4]
  · -- neg = true, hs = true
    show extract d (['-'] ++ (c :: t) ++ d :: b) = ⟨['-'], c :: t, [d], b⟩
    simp [extract, h1, h2, takeWhile_eq_self_of_all hb]

/-! ### Grouping -/

/-- Models the global regex replacement `.replace(/([0-9]{3})/g, "$1" ++ g)`:
scan from the left; each run of exactly three consecutive digits is kept and
followed by `g`. -/
def replaceTriples (g : Char) : List Char → List Char
  | a :: b :: c :: t =>
      if a.isDigit ∧ b.isDigit ∧ c.isDigit then
        a :: b :: c :: g :: replaceTriples g t
      else a :: replaceTriples g (b :: c :: t)
  | l => l

/-- Models `setGroupSeparators` of the source: reverse the string, append `g`
after every three digits, reverse back, and drop a leading separator if one
was produced. -/
def setGroupSeparators (g : Char) (value : List Char) : List Char :=
  let enhanced := (replaceTriples g value.reverse).reverse
  match enhanced with
  | c :: t => if c = g then t else enhanced
  | [] => []

/-- Partition a list into chunks of three from the left (a final shorter
chunk is kept).  Applied to a reversed digit string this yields the digit
groups of the grouping step, least-significant group first. -/
def chunks3 : List Char → List (List Char)
  | a :: b :: c :: t => [a, b, c] :: chunks3 t
  | [] => []
  | l => [l]

/-- The digit groups of `l` of size three counted from the right
(most-significant, possibly shorter, group first). -/
def chunksRight3 (l : List Char) : List (List Char) :=
  ((chunks3 l.reverse).map List.reverse).reverse

/-- Join a list of chunks with the single separator `g` between chunks. -/
def joinWith (g : Char) : List (List Char) → List Char
  | [] => []
  | [x] => x
  | x :: xs => x ++ g :: joinWith g xs

theorem joinWith_append_single (g : Char) (y : List Char) :
    ∀ X : List (List Char), X ≠ [] →
      joinWith g (X ++ [y]) = joinWith g X ++ g :: y
  | [], h => absurd rfl h
  | [x], _ => rfl
  | x :: x' :: xs, _ => by
      have ih := joinWith_append_single g y (x' :: xs) (by simp)
      have e1 : joinWith g ((x :: x' :: xs) ++ [y]) =
          x ++ g :: joinWith g ((x' :: xs) ++ [y]) := rfl
      have e2 : joinWith g (x :: x' :: xs) =
          x ++ g :: joinWith g (x' :: xs) := rfl
      rw [e1, ih, e2]
      simp

theorem chunks3_ne_nil {l : List Char} (h : l ≠ []) : chunks3 l ≠ [] := by
  match l with
  | a :: b :: c :: t => simp [chunks3]
  | [a] => simp [chunks3]
  | [a, b] => simp [chunks3]

theorem chunks3_mem {l : List Char} {s : List Char} (hs : s ∈ chunks3 l) :
    s ≠ [] ∧ ∀ c ∈ s, c ∈ l := by
  match l with
  | [] => simp [chunks3] at hs
  | [a] =>
      simp only [chunks3, List.mem_singleton] at hs
      subst hs; exact ⟨by simp, by simp⟩
  | [a, b] =>
      simp only [chunks3, List.mem_singleton] at hs
      subst hs; exact ⟨by simp, by simp⟩
  | a :: b :: c :: t =>
      simp only [chunks3, List.mem_cons] at hs
      rcases hs with rfl | hs
      · refine ⟨by simp, fun x hx => ?_⟩
        simp only [List.mem_cons, List.not_mem_nil, or_false] at hx
        simp only [List.mem_cons]
        tauto
      · obtain ⟨h1, h2⟩ := chunks3_mem hs
        exact ⟨h1, fun x hx => by
          have := h2 x hx
          simp only [List.mem_cons]; tauto⟩

theorem chunks3_flatten (l : List Char) : (chunks3 l).flatten = l := by
  match l with
  | [] => simp [chunks3]
  | [a] => simp [chunks3]
  | [a, b] => simp [chunks3]
  | a :: b :: c :: t =>
      have ih := chunks3_flatten t
      simp [chunks3, ih]

/-- Core lemma about the reversed regex replacement: on a non-empty all-digit
list it produces the joined chunk decomposition, with one stray separator in
front exactly when the length is a multiple of three. -/
theorem reverse_replaceTriples (g : Char) (r : List Char)
    (hr : ∀ c ∈ r, c.isDigit) (h0 : r ≠ []) :
    (replaceTriples g r).reverse =
      (if r.length % 3 = 0 then [g] else []) ++
        joinWith g ((chunks3 r).map List.reverse).reverse := by
  match r with
  | [a] =>
      simp [replaceTriples, chunks3, joinWith]
  | [a, b] =>
      simp [replaceTriples, chunks3, joinWith]
  | a :: b :: c :: t =>
      have hdig : a.isDigit ∧ b.isDigit ∧ c.isDigit :=
        ⟨hr a (by simp), hr b (by simp), hr c (by simp)⟩
      have hlen : (a :: b :: c :: t).length % 3 = t.length % 3 := by
        simp [List.length_cons]
        omega
      rw [replaceTriples, if_pos hdig]
      by_cases ht : t = []
      · subst ht
        simp [replaceTriples, chunks3, joinWith]
      · have ih := reverse_replaceTriples g t (fun x hx => hr x (by simp [hx])) ht
        have hc3 : chunks3 t ≠ [] := chunks3_ne_nil ht
        have hmapne : ((chunks3 t).map List.reverse).reverse ≠ [] := by
          simpa using hc3
        calc (a :: b :: c :: g :: replaceTriples g t).reverse
            = (replaceTriples g t).reverse ++ [g, c, b, a] := by simp
          _ = ((if t.length % 3 = 0 then [g] else []) ++
                joinWith g ((chunks3 t).map List.reverse).reverse) ++ [g, c, b, a] := by
                rw [ih]
          _ = (if t.length % 3 = 0 then [g] else []) ++
                (joinWith g ((chunks3 t).map List.reverse).reverse ++ g :: [c, b, a]) := by
                simp
          _ = (if t.length % 3 = 0 then [g] else []) ++
                joinWith g (((chunks3 t).map List.reverse).reverse ++ [[c, b, a]]) := by
                rw [joinWith_append_single g [c, b, a] _ hmapne]
          _ = (if (a :: b :: c :: t).length % 3 = 0 then [g] else []) ++
                joinWith g ((chunks3 (a :: b :: c :: t)).map List.reverse).reverse := by
                rw [hlen]
                simp [chunks3]

theorem joinWith_head? (g : Char) (y : List Char) (ys : List (List Char))
    (hy : y ≠ []) : (joinWith g (y :: ys)).head? = y.head? := by
  cases ys with
  | nil => rfl
  | cons z zs =>
      have e : joinWith g (y :: z :: zs) = y ++ g :: joinWith g (z :: zs) := rfl
      rw [e]
      cases y with
      | nil => exact absurd rfl hy
      | cons c t => simp

/-- The grouping step, characterized: on a non-empty digit string it joins
the 3-digit groups (counted from the right) with the group separator. -/
theorem setGroupSeparators_spec (g : Char) (hg : ¬g.isDigit)
    (l : List Char) (hl : ∀ c ∈ l, c.isDigit) (h0 : l ≠ []) :
    setGroupSeparators g l = joinWith g (chunksRight3 l) := by
  have hr : ∀ c ∈ l.reverse, c.isDigit := by
    intro c hc; exact hl c (by simpa using hc)
  have h0r : l.reverse ≠ [] := by simpa using h0
  have key := reverse_replaceTriples g l.reverse hr h0r
  have hhead : (joinWith g (chunksRight3 l)).head? ≠ some g := by
    unfold chunksRight3
    obtain ⟨y, ys, hy⟩ : ∃ y ys,
        ((chunks3 l.reverse).map List.reverse).reverse = y :: ys := by
      have : ((chunks3 l.reverse).map List.reverse).reverse ≠ [] := by
        simpa using chunks3_ne_nil h0r
      cases hmm : ((chunks3 l.reverse).map List.reverse).reverse with
      | nil => exact absurd hmm this
      | cons y ys => exact ⟨y, ys, rfl⟩
    have hymem : y ∈ ((chunks3 l.reverse).map List.reverse).reverse := by
      rw [hy]; simp
    obtain ⟨s, hs, rfl⟩ : ∃ s ∈ chunks3 l.reverse, s.reverse = y := by
      simpa using hymem
    obtain ⟨hsne, hssub⟩ := chunks3_mem hs
    rw [hy, joinWith_head? g _ _ (by simpa using hsne)]
    cases hrev : s.reverse with
    | nil => exact absurd (List.reverse_eq_nil_iff.mp hrev) hsne
    | cons c t =>
        have hcmem : c ∈ s := by
          have : c ∈ s.reverse := by rw [hrev]; simp
          simpa using this
        have : c.isDigit := hr c (hssub c hcmem)
        simp only [List.head?_cons, ne_eq, Option.some.injEq]
        exact ne_of_isDigit_of_not this hg
  have key' : (replaceTriples g l.reverse).reverse =
      (if l.reverse.length % 3 = 0 then [g] else []) ++
        joinWith g (chunksRight3 l) := by
    rw [key]; rfl
  unfold setGroupSeparators
  rw [key']
  by_cases hmod : l.reverse.length % 3 = 0
  · rw [if_pos hmod]
    simp
  · rw [if_neg hmod]
    simp only [List.nil_append]
    cases hj : joinWith g (chunksRight3 l) with
    | nil => simp
    | cons c t =>
        have hcg : c ≠ g := by
          rw [hj] at hhead
          simpa using hhead
        simp [hcg]

theorem flatten_chunksRight3 (l : List Char) : (chunksRight3 l).flatten = l := by
  unfold chunksRight3
  rw [← List.reverse_flatten, chunks3_flatten, List.reverse_reverse]

theorem filter_joinWith (g : Char) :
    ∀ X : List (List Char), (∀ s ∈ X, ∀ c ∈ s, c ≠ g) →
      (joinWith g X).filter (· ≠ g) = X.flatten
  | [], _ => rfl
  | [x], h => by
      have : x.filter (· ≠ g) = x :=
        List.filter_eq_self.mpr fun c hc => by
          simpa using h x (by simp) c hc
      simpa [joinWith] using this
  | x :: x' :: xs, h => by
      have e : joinWith g (x :: x' :: xs) = x ++ g :: joinWith g (x' :: xs) := rfl
      have ih := filter_joinWith g (x' :: xs) fun s hs => h s (by simp [hs])
      have hx : x.filter (· ≠ g) = x :=
        List.filter_eq_self.mpr fun c hc => by
          simpa using h x (by simp) c hc
      rw [e, List.filter_append, hx]
      simp only [List.flatten_cons, List.append_cancel_left_eq]
      rw [List.filter_cons_of_neg (by simp)]
      exact ih

theorem mem_joinWith {g : Char} {X : List (List Char)} {c : Char} :
    ∀ (_ : c ∈ joinWith g X), (∃ s ∈ X, c ∈ s) ∨ c = g := by
  induction X with
  | nil => intro h; simp [joinWith] at h
  | cons x xs ih =>
      intro h
      cases xs with
      | nil =>
          simp only [joinWith] at h
          exact Or.inl ⟨x, by simp, h⟩
      | cons x' xs' =>
          have e : joinWith g (x :: x' :: xs') =
              x ++ g :: joinWith g (x' :: xs') := rfl
          rw [e, List.mem_append, List.mem_cons] at h
          rcases h with h | h | h
          · exact Or.inl ⟨x, by simp, h⟩
          · exact Or.inr h
          · rcases ih h with ⟨s, hs, hcs⟩ | h
            · exact Or.inl ⟨s, by simp [hs], hcs⟩
            · exact Or.inr h

/-- Removing every group separator from the grouped string recovers the
original digits. -/
theorem setGroupSeparators_filter (g : Char) (hg : ¬g.isDigit)
    (l : List Char) (hl : ∀ c ∈ l, c.isDigit) :
    (setGroupSeparators g l).filter (· ≠ g) = l := by
  by_cases h0 : l = []
  · subst h0; rfl
  · rw [setGroupSeparators_spec g hg l hl h0]
    rw [filter_joinWith g _ ?_, flatten_chunksRight3]
    intro s hs c hc
    have hmem : c ∈ (chunksRight3 l).flatten := by
      rw [List.mem_flatten]; exact ⟨s, hs, hc⟩
    rw [flatten_chunksRight3] at hmem
    exact ne_of_isDigit_of_not (hl c hmem) hg

/-- Every character of the grouped string is one of the original digits or
the group separator. -/
theorem setGroupSeparators_mem (g : Char) (hg : ¬g.isDigit)
    (l : List Char) (hl : ∀ c ∈ l, c.isDigit) :
    ∀ c ∈ setGroupSeparators g l, c ∈ l ∨ c = g := by
  intro c hc
  by_cases h0 : l = []
  · subst h0; simp [setGroupSeparators, replaceTriples] at hc
  · rw [setGroupSeparators_spec g hg l hl h0] at hc
    rcases mem_joinWith hc with ⟨s, hs, hcs⟩ | h
    · left
      have hmem : c ∈ (chunksRight3 l).flatten := by
        rw [List.mem_flatten]; exact ⟨s, hs, hcs⟩
      rwa [flatten_chunksRight3] at hmem
    · exact Or.inr h

/-- The grouped string never starts with the group separator; it starts with
the first digit of the input. -/
theorem setGroupSeparators_head? (g : Char) (hg : ¬g.isDigit)
    (l : List Char) (hl : ∀ c ∈ l, c.isDigit) (h0 : l ≠ []) :
    (setGroupSeparators g l).head? = (chunksRight3 l).head?.bind List.head? := by
  rw [setGroupSeparators_spec g hg l hl h0]
  obtain ⟨y, ys, hy⟩ : ∃ y ys, chunksRight3 l = y :: ys := by
    cases hc : chunksRight3 l with
    | nil =>
        have := flatten_chunksRight3 l
        rw [hc] at this
        simp at this
        exact absurd this h0
    | cons y ys => exact ⟨y, ys, rfl⟩
  have hyne : y ≠ [] := by
    intro hy0
    have hmem : y ∈ chunksRight3 l := by rw [hy]; simp
    unfold chunksRight3 at hmem
    simp only [List.mem_reverse, List.mem_map] at hmem
    obtain ⟨s, hs, hsy⟩ := hmem
    have := (chunks3_mem hs).1
    rw [hy0] at hsy
    exact this (by simpa using hsy)
  rw [hy, joinWith_head? g y ys hyne]
  simp

/-- The grouped string of a non-empty digit list is non-empty and starts
with a digit. -/
theorem setGroupSeparators_head_isDigit (g : Char) (hg : ¬g.isDigit)
    (l : List Char) (hl : ∀ c ∈ l, c.isDigit) (h0 : l ≠ []) :
    ∃ c t, setGroupSeparators g l = c :: t ∧ c.isDigit := by
  cases hsg : setGroupSeparators g l with
  | nil =>
      have := setGroupSeparators_filter g hg l hl
      rw [hsg] at this
      simp at this
      exact absurd this h0
  | cons c t =>
      refine ⟨c, t, rfl, ?_⟩
      have hc : c ∈ setGroupSeparators g l := by rw [hsg]; simp
      rcases setGroupSeparators_mem g hg l hl c hc with h | h
      · exact hl c h
      · -- the head cannot be the separator
        have hh := setGroupSeparators_head? g hg l hl h0
        rw [hsg] at hh
        exfalso
        obtain ⟨y, ys, hy⟩ : ∃ y ys, chunksRight3 l = y :: ys := by
          cases hcr : chunksRight3 l with
          | nil =>
              have := flatten_chunksRight3 l
              rw [hcr] at this
              simp at this
              exact absurd this h0
          | cons y ys => exact ⟨y, ys, rfl⟩
        rw [hy] at hh
        cases y with
        | nil =>
            have hmem : ([] : List Char) ∈ chunksRight3 l := by rw [hy]; simp
            unfold chunksRight3 at hmem
            simp only [List.mem_reverse, List.mem_map] at hmem
            obtain ⟨s, hs, hsy⟩ := hmem
            exact (chunks3_mem hs).1 (by simpa using hsy)
        | cons d u =>
            have hdmem : d ∈ (chunksRight3 l).flatten := by
              rw [hy]; simp
            rw [flatten_chunksRight3] at hdmem
            have : d.isDigit := hl d hdmem
            have hcd : c = d := by simpa using hh
            subst hcd
            subst h
            exact hg this

/-! ### The host's numbers and their decimal representations -/

/-- The numeric value of a digit string read in base 10
(`'1','2','3'` ↦ 123; the empty string reads as 0). -/
def digitsVal (l : List Char) : Nat :=
  l.foldl (fun a c => 10 * a + (c.toNat - 48)) 0

/-- A finite number in plain decimal notation, as produced by the host's
`String(value)`: a sign, the integer digits and the fraction digits (empty
fraction means no decimal point in the representation).  The pair
`neg = true` with zero digits represents negative zero. -/
structure Dec where
  neg : Bool
  intDigits : List Char
  fracDigits : List Char
deriving DecidableEq

/-- The rational value denoted by a decimal representation. -/
def Dec.val (x : Dec) : ℚ :=
  (if x.neg then -1 else 1) *
    ((digitsVal x.intDigits : ℚ) +
      (digitsVal x.fracDigits : ℚ) / 10 ^ x.fracDigits.length)

/-- Whether `value === 0` holds for the represented number (all digits are zero). -/
def Dec.isZero (x : Dec) : Bool :=
  x.intDigits.all (· = '0') && x.fracDigits.all (· = '0')

/-- Well-formedness: the shape `String(value)` actually produces for a finite
number in plain decimal notation — a non-empty all-digit integer part with no
leading zero (except for `"0"` itself) and an all-digit fraction part with no
trailing zero. -/
def Dec.WF (x : Dec) : Prop :=
  x.intDigits ≠ [] ∧ (∀ c ∈ x.intDigits, c.isDigit) ∧
    (1 < x.intDigits.length → x.intDigits.head? ≠ some '0') ∧
    (∀ c ∈ x.fracDigits, c.isDigit) ∧ x.fracDigits.getLast? ≠ some '0'

instance (x : Dec) : Decidable x.WF := by
  unfold Dec.WF; infer_instance

/-- A host numeric value as fed to `toString`: a finite number in plain
decimal notation, or one of the non-finite values. -/
inductive JSNum where
  | fin (x : Dec)
  | nan
  | inf
  | ninf
deriving DecidableEq

/-- Models `String(value)`: sign (suppressed on both zeros), integer digits,
a dot and the fraction digits when the fraction is non-empty; `"NaN"`,
`"Infinity"` and `"-Infinity"` for the non-finite values. -/
def hostString : JSNum → List Char
  | .fin x =>
      (if x.neg && !x.isZero then ['-'] else []) ++ x.intDigits ++
        (if x.fracDigits = [] then [] else '.' :: x.fracDigits)
  | .nan => "NaN".toList
  | .inf => "Infinity".toList
  | .ninf => "-Infinity".toList

/-- Whether `value === 0` holds (true for both signed zeros, false for non-finite values). -/
def isZeroNum : JSNum → Bool
  | .fin x => x.isZero
  | _ => false

/-- Whether `1 / value === Number.NEGATIVE_INFINITY` holds: the value is negative zero. -/
def isNegativeZero : JSNum → Bool
  | .fin x => x.isZero && x.neg
  | _ => false

/-- Models the host `Number()` conversion on the canonical strings the
converter reassembles (an optional `'-'`, digits, an optional `'.'`,
digits): the empty string converts to 0; a string with no digits at all
(`"-"`, `"."`, `"-."`) is not a number; otherwise the denoted value. -/
def hostNumber (cs : List Char) : Option ℚ :=
  if cs = [] then some 0
  else
    let neg : Bool := cs.head? = some '-'
    let r1 := if cs.head? = some '-' then cs.tail else cs
    let a := r1.takeWhile Char.isDigit
    let r2 := r1.dropWhile Char.isDigit
    let r3 := if r2.head? = some '.' then r2.tail else r2
    let b := r3.takeWhile Char.isDigit
    let r4 := r3.dropWhile Char.isDigit
    if r4 = [] then
      if a = [] ∧ b = [] then none
      else
        some ((if neg then -1 else 1) *
          ((digitsVal a : ℚ) + (digitsVal b : ℚ) / 10 ^ b.length))
    else none

/-! ### The two converter operations -/

/-- Models `toString` of the source: take the host decimal representation with the
dot replaced by the decimal separator, force a sign onto negative zero,
match the extraction pattern (when the match returns null, the destructuring
of its groups throws — the `Except.error` outcome), group the
group-separator-stripped integer digits, and pad the fraction up to
`precision` (emitting separator and fraction as found when the fraction is
already at or beyond the precision, or the precision is 0). -/
def toString (o : Options) (value : JSNum) : Except Unit (List Char) :=
  let valueAsString := replaceFirstDot o.decimalSeparator (hostString value)
  let valueAsString :=
    if isZeroNum value then
      (if isNegativeZero value then ['-'] else []) ++ valueAsString
    else valueAsString
  match matchExtract o.decimalSeparator valueAsString with
  | none => .error ()
  | some p =>
    let formatted := p.sign
    let formatted :=
      if p.integer ≠ [] then
        formatted ++
          setGroupSeparators o.groupSeparator
            (stripGroup o.groupSeparator p.integer)
      else formatted
    if o.precision ≠ 0 ∧ p.fraction.length < o.precision then
      .ok (formatted ++ [o.decimalSeparator] ++ p.fraction ++
        List.replicate (o.precision - p.fraction.length) '0')
    else
      .ok ((if p.separator ≠ [] then formatted ++ p.separator else formatted) ++
        (if p.fraction ≠ [] then p.fraction else []))

/-- Models `toNumber` of the source: the empty string is not a number;
otherwise strip the group separators and match the extraction pattern (a
null match makes the destructuring throw, before the `try` — the
`Except.error` outcome), reassemble `sign ++ integer ++ "." ++ fraction`
(dot only when a separator was matched) and convert with the host parser.
The defensive catch around the conversion is unreachable: the host
conversion never throws, and `Except.ok none` is the not-a-number result. -/
def toNumber (o : Options) (value : List Char) : Except Unit (Option ℚ) :=
  if value = [] then .ok none
  else
    match matchExtract o.decimalSeparator (stripGroup o.groupSeparator value) with
    | none => .error ()
    | some p =>
      let formatted := p.sign
      let formatted := if p.integer ≠ [] then formatted ++ p.integer else formatted
      let formatted := if p.separator ≠ [] then formatted ++ ['.'] else formatted
      let formatted := if p.fraction ≠ [] then formatted ++ p.fraction else formatted
      .ok (hostNumber formatted)

/-- The canonical decimal string `parse` reassembles, in the words of the
specification: `sign + integerDigits + ('.' if hasSeparator else '') +
fractionDigits` of the group-separator-stripped input. -/
def canonicalReassembly (o : Options) (value : List Char) : List Char :=
  let p := extract o.decimalSeparator (removeAllChar o.groupSeparator value)
  p.sign ++ p.integer ++ (if p.separator ≠ [] then ['.'] else []) ++ p.fraction

/-! ### Arithmetic of digit strings -/

theorem digitsVal_foldl (b : List Char) (s : Nat) :
    b.foldl (fun a c => 10 * a + (c.toNat - 48)) s =
      s * 10 ^ b.length + digitsVal b := by
  induction b generalizing s with
  | nil => simp [digitsVal]
  | cons c t ih =>
      have h1 : digitsVal (c :: t) =
          t.foldl (fun a c => 10 * a + (c.toNat - 48)) (c.toNat - 48) := by
        simp [digitsVal]
      rw [List.foldl_cons, ih, h1, ih (c.toNat - 48)]
      simp [List.length_cons, pow_succ]
      ring

theorem digitsVal_append (a b : List Char) :
    digitsVal (a ++ b) = digitsVal a * 10 ^ b.length + digitsVal b := by
  unfold digitsVal
  rw [List.foldl_append]
  exact digitsVal_foldl b _

theorem digitsVal_replicate_zero (k : Nat) :
    digitsVal (List.replicate k '0') = 0 := by
  induction k with
  | zero => rfl
  | succ n ih =>
      rw [List.replicate_succ]
      show List.foldl _ (10 * 0 + ('0'.toNat - 48)) (List.replicate n '0') = 0
      simpa [digitsVal] using ih

/-- Trailing zeros do not change the value of a fraction digit string. -/
theorem frac_val_pad (fr : List Char) (k : Nat) :
    (digitsVal (fr ++ List.replicate k '0') : ℚ) /
        10 ^ (fr ++ List.replicate k '0').length
      = (digitsVal fr : ℚ) / 10 ^ fr.length := by
  rw [digitsVal_append, digitsVal_replicate_zero, List.length_append,
    List.length_replicate]
  push_cast
  rw [add_zero, pow_add]
  exact mul_div_mul_right _ _ (by positivity)

/-- A well-formed zero representation is exactly `"0"` with empty fraction. -/
theorem WF_isZero {x : Dec} (hx : x.WF) (hz : x.isZero = true) :
    x.intDigits = ['0'] ∧ x.fracDigits = [] := by
  obtain ⟨hne, hdig, hlead, hfdig, htrail⟩ := hx
  unfold Dec.isZero at hz
  rw [Bool.and_eq_true, List.all_eq_true, List.all_eq_true] at hz
  obtain ⟨hzi, hzf⟩ := hz
  constructor
  · cases hi : x.intDigits with
    | nil => exact absurd hi hne
    | cons c t =>
        have hc0 : c = '0' := by
          simpa using hzi c (by rw [hi]; simp)
        cases t with
        | nil => rw [hc0]
        | cons c' t' =>
            exfalso
            have hlen : 1 < x.intDigits.length := by rw [hi]; simp
            have := hlead hlen
            rw [hi] at this
            simp [hc0] at this
  · cases hf : x.fracDigits with
    | nil => rfl
    | cons c t =>
        exfalso
        have hne' : x.fracDigits ≠ [] := by rw [hf]; simp
        have hmem := List.getLast_mem hne'
        have h0 : x.fracDigits.getLast hne' = '0' := by
          simpa using hzf _ hmem
        have := List.getLast?_eq_getLast x.fracDigits hne'
        rw [h0] at this
        exact htrail this

/-! ### Structure of `toString` on finite numbers -/

theorem replaceFirstDot_of_not_mem {d : Char} {l : List Char}
    (h : ('.' : Char) ∉ l) : replaceFirstDot d l = l := by
  induction l with
  | nil => rfl
  | cons c t ih =>
      have hcd : c ≠ '.' := by intro hc; exact h (by simp [hc])
      rw [replaceFirstDot, if_neg hcd, ih fun hm => h (by simp [hm])]

theorem replaceFirstDot_append {d : Char} {a : List Char} (b : List Char)
    (h : ('.' : Char) ∉ a) :
    replaceFirstDot d (a ++ '.' :: b) = a ++ d :: b := by
  induction a with
  | nil => simp [replaceFirstDot]
  | cons c t ih =>
      have hcd : c ≠ '.' := by intro hc; exact h (by simp [hc])
      rw [List.cons_append, replaceFirstDot, if_neg hcd,
        ih fun hm => h (by simp [hm])]
      simp

theorem dot_not_mem_of_digits {l : List Char} (h : ∀ c ∈ l, c.isDigit) :
    ('.' : Char) ∉ l := by
  intro hm
  have := h _ hm
  simp [Char.isDigit] at this

/-- Evaluating `toString` on a well-formed finite decimal representation,
for decimal separators whose class is literal: the match succeeds and the
output is the sign, the grouping of the group-separator-stripped integer
digits, then the padded fraction (when `precision > 0` and the fraction is
short) or the separator and fraction exactly as found. -/
theorem toString_fin (o : Options) (ho : o.Valid)
    (hdlit : sepClass o.decimalSeparator = SepClass.literal)
    (x : Dec) (hx : x.WF) :
    toString o (.fin x) =
      .ok ((if x.neg then ['-'] else []) ++
        setGroupSeparators o.groupSeparator
          (stripGroup o.groupSeparator x.intDigits) ++
        (if o.precision ≠ 0 ∧ x.fracDigits.length < o.precision then
          o.decimalSeparator :: (x.fracDigits ++
            List.replicate (o.precision - x.fracDigits.length) '0')
        else
          (if x.fracDigits ≠ [] then [o.decimalSeparator] else []) ++
            x.fracDigits)) := by
  obtain ⟨hgd, hdd, hgdne⟩ := ho
  obtain ⟨hine, hidig, hlead, hfdig, htrail⟩ := hx
  -- the string after dot replacement and negative-zero adjustment
  have hadj :
      (if isZeroNum (.fin x) then
        (if isNegativeZero (.fin x) then ['-'] else []) ++
          replaceFirstDot o.decimalSeparator (hostString (.fin x))
      else replaceFirstDot o.decimalSeparator (hostString (.fin x))) =
      (if x.neg then ['-'] else []) ++ x.intDigits ++
        (if x.fracDigits = [] then [] else o.decimalSeparator :: x.fracDigits) := by
    by_cases hz : x.isZero
    · obtain ⟨hi0, hf0⟩ := WF_isZero ⟨hine, hidig, hlead, hfdig, htrail⟩ hz
      have hred : hostString (.fin x) =
          (if x.neg && !x.isZero then ['-'] else []) ++ x.intDigits ++
            (if x.fracDigits = [] then [] else '.' :: x.fracDigits) := rfl
      have hhost : hostString (.fin x) = x.intDigits := by
        rw [hred, hz]
        simp [hi0, hf0]
      rw [hhost, replaceFirstDot_of_not_mem (dot_not_mem_of_digits hidig)]
      have h1 : isZeroNum (.fin x) = true := hz
      have h2 : isNegativeZero (.fin x) = (x.isZero && x.neg) := rfl
      rw [if_pos h1, h2, hz]
      cases hneg : x.neg <;> simp [hf0]
    · have h1 : isZeroNum (.fin x) = false := by simpa [isZeroNum] using hz
      rw [if_neg (by simp [h1])]
      have hsign : (x.neg && !x.isZero) = x.neg := by
        cases hneg : x.neg <;> simp [hz]
      have hred : hostString (.fin x) =
          (if x.neg && !x.isZero then ['-'] else []) ++ x.intDigits ++
            (if x.fracDigits = [] then [] else '.' :: x.fracDigits) := rfl
      rw [hred, hsign]
      by_cases hf : x.fracDigits = []
      · rw [if_pos hf, if_pos hf, List.append_nil,
          replaceFirstDot_of_not_mem]
        intro hm
        rcases List.mem_append.mp hm with hm | hm
        · cases hneg : x.neg <;> rw [hneg] at hm <;> simp at hm
        · exact dot_not_mem_of_digits hidig hm
      · rw [if_neg hf, if_neg hf, replaceFirstDot_append]
        intro hm
        rcases List.mem_append.mp hm with hm | hm
        · cases hneg : x.neg <;> rw [hneg] at hm <;> simp at hm
        · exact dot_not_mem_of_digits hidig hm
  -- the extraction of the adjusted string
  have hext : extract o.decimalSeparator
      ((if x.neg then ['-'] else []) ++ x.intDigits ++
        (if x.fracDigits = [] then [] else o.decimalSeparator :: x.fracDigits)) =
      ⟨if x.neg then ['-'] else [], x.intDigits,
        if x.fracDigits = [] then [] else [o.decimalSeparator],
        x.fracDigits⟩ := by
    by_cases hf : x.fracDigits = []
    · rw [hf]
      have := extract_eq o.decimalSeparator hdd x.neg x.intDigits []
        hidig (by simp) hine false
      simpa using this
    · rw [if_neg hf, if_neg hf]
      have := extract_eq o.decimalSeparator hdd x.neg x.intDigits x.fracDigits
        hidig hfdig hine true
      simpa using this
  simp only [toString]
  rw [hadj, matchExtract_literal hdlit, hext]
  dsimp only
  rw [if_pos (show ¬x.intDigits = [] from hine)]
  by_cases hp : o.precision ≠ 0 ∧ x.fracDigits.length < o.precision
  · rw [if_pos hp, if_pos hp]
    simp
  · rw [if_neg hp, if_neg hp]
    by_cases hf : x.fracDigits = []
    · rw [hf]
      simp
    · rw [if_neg hf]
      simp [hf]

/-- For non-empty input, on a configuration where both regexes act
literally, `toNumber` succeeds with the host conversion of the canonical
reassembled decimal string of the specification. -/
theorem toNumber_eq_canonical (o : Options)
    (hglit : isSpecialEscape o.groupSeparator = false)
    (hdlit : sepClass o.decimalSeparator = SepClass.literal)
    (v : List Char) (hv : v ≠ []) :
    toNumber o v = .ok (hostNumber (canonicalReassembly o v)) := by
  unfold toNumber canonicalReassembly
  rw [if_neg hv, stripGroup_eq_removeAll hglit, matchExtract_literal hdlit]
  by_cases h1 : (extract o.decimalSeparator (removeAllChar o.groupSeparator v)).integer = [] <;>
    by_cases h2 : (extract o.decimalSeparator (removeAllChar o.groupSeparator v)).separator = [] <;>
      by_cases h3 : (extract o.decimalSeparator (removeAllChar o.groupSeparator v)).fraction = [] <;>
        simp [h1, h2, h3]

/-- Evaluation of the host `Number()` model on a reassembled canonical
string `sign ++ digits ++ ('.' ++ digits)?`: it is not a number exactly when
there are no digits but a sign or a dot is present; otherwise it denotes the
signed decimal value. -/
theorem hostNumber_parts (neg hasDot : Bool) (a b : List Char)
    (ha : ∀ c ∈ a, c.isDigit) (hb : ∀ c ∈ b, c.isDigit)
    (hb0 : hasDot = false → b = []) :
    hostNumber ((if neg then ['-'] else []) ++ a ++
        (if hasDot then '.' :: b else [])) =
      if a = [] ∧ b = [] ∧ (neg = true ∨ hasDot = true) then none
      else
        some ((if neg then -1 else 1) *
          ((digitsVal a : ℚ) + (digitsVal b : ℚ) / 10 ^ b.length)) := by
  have hdotd : ¬(Char.isDigit '.' = true) := by decide
  have htwb : b.takeWhile Char.isDigit = b := takeWhile_eq_self_of_all hb
  have hdwb : b.dropWhile Char.isDigit = [] := dropWhile_eq_nil_of_all hb
  cases hasDot
  · -- no dot present
    have hbe : b = [] := hb0 rfl
    subst hbe
    cases neg
    · cases a with
      | nil => simp [hostNumber, digitsVal]
      | cons c t =>
          have hcd : c ≠ '-' := ne_dash_of_isDigit (ha c (by simp))
          have htw : (c :: t).takeWhile Char.isDigit = c :: t :=
            takeWhile_eq_self_of_all ha
          have hdw : (c :: t).dropWhile Char.isDigit = [] :=
            dropWhile_eq_nil_of_all ha
          simp [hostNumber, htw, hdw, hcd, digitsVal]
    · cases a with
      | nil => simp [hostNumber]
      | cons c t =>
          have htw : (c :: t).takeWhile Char.isDigit = c :: t :=
            takeWhile_eq_self_of_all ha
          have hdw : (c :: t).dropWhile Char.isDigit = [] :=
            dropWhile_eq_nil_of_all ha
          simp [hostNumber, htw, hdw, digitsVal]
  · -- dot present
    cases neg
    · cases a with
      | nil =>
          by_cases hbe : b = []
          · subst hbe
            simp [hostNumber, hdotd]
          · simp [hostNumber, hdotd, htwb, hdwb, hbe, digitsVal]
      | cons c t =>
          have hcd : c ≠ '-' := ne_dash_of_isDigit (ha c (by simp))
          have h1 : (c :: (t ++ '.' :: b)).takeWhile Char.isDigit = c :: t := by
            rw [← List.cons_append, takeWhile_append_all _ ha,
              List.takeWhile_cons_of_neg hdotd]
            simp
          have h2 : (c :: (t ++ '.' :: b)).dropWhile Char.isDigit = '.' :: b := by
            rw [← List.cons_append, dropWhile_append_all _ ha,
              List.dropWhile_cons_of_neg hdotd]
          simp [hostNumber, h1, h2, hcd, htwb, hdwb, digitsVal]
    · cases a with
      | nil =>
          by_cases hbe : b = []
          · subst hbe
            simp [hostNumber, hdotd]
          · simp [hostNumber, hdotd, htwb, hdwb, hbe, digitsVal]
      | cons c t =>
          have h1 : (c :: (t ++ '.' :: b)).takeWhile Char.isDigit = c :: t := by
            rw [← List.cons_append, takeWhile_append_all _ ha,
              List.takeWhile_cons_of_neg hdotd]
            simp
          have h2 : (c :: (t ++ '.' :: b)).dropWhile Char.isDigit = '.' :: b := by
            rw [← List.cons_append, dropWhile_append_all _ ha,
              List.dropWhile_cons_of_neg hdotd]
          simp [hostNumber, h1, h2, htwb, hdwb, digitsVal]

/-! ### Shape facts about `extract` on arbitrary input -/

theorem extract_sign_cases (d : Char) (cs : List Char) :
    (extract d cs).sign = [] ∨ (extract d cs).sign = ['-'] := by
  unfold extract
  by_cases h : cs.head? = some '-' <;> simp [h]

theorem extract_integer_digits (d : Char) (cs : List Char) :
    ∀ c ∈ (extract d cs).integer, c.isDigit := by
  intro c hc
  unfold extract at hc
  dsimp only at hc
  exact mem_takeWhile_sub hc

theorem extract_fraction_digits (d : Char) (cs : List Char) :
    ∀ c ∈ (extract d cs).fraction, c.isDigit := by
  intro c hc
  unfold extract at hc
  dsimp only at hc
  exact mem_takeWhile_sub hc

theorem extract_separator_nil_fraction (d : Char) (cs : List Char)
    (h : (extract d cs).separator = []) : (extract d cs).fraction = [] := by
  unfold extract at h ⊢
  dsimp only at h ⊢
  by_cases hcond :
      ((if cs.head? = some '-' then cs.tail else cs).dropWhile
        Char.isDigit).head? = some d
  · rw [if_pos hcond] at h
    simp at h
  · rw [if_neg hcond]
    exact takeWhile_dropWhile_self _ _

/-! ### Shared helpers for the claims -/

instance {e a : Type} [DecidableEq e] [DecidableEq a] :
    DecidableEq (Except e a) := fun x y =>
  match x, y with
  | .error u, .error v =>
      if h : u = v then isTrue (by rw [h]) else isFalse (by simp [h])
  | .ok u, .ok v =>
      if h : u = v then isTrue (by rw [h]) else isFalse (by simp [h])
  | .error _, .ok _ => isFalse (by simp)
  | .ok _, .error _ => isFalse (by simp)

theorem extract_eq_sep (d : Char) (hd : ¬d.isDigit) (neg : Bool)
    (a b : List Char) (ha : ∀ c ∈ a, c.isDigit) (hb : ∀ c ∈ b, c.isDigit)
    (ha0 : a ≠ []) :
    extract d ((if neg then ['-'] else []) ++ a ++ (d :: b)) =
      ⟨if neg then ['-'] else [], a, [d], b⟩ := by
  have := extract_eq d hd neg a b ha hb ha0 true
  simpa using this

theorem extract_eq_nosep (d : Char) (hd : ¬d.isDigit) (neg : Bool)
    (a : List Char) (ha : ∀ c ∈ a, c.isDigit) (ha0 : a ≠ []) :
    extract d ((if neg then ['-'] else []) ++ a) =
      ⟨if neg then ['-'] else [], a, [], []⟩ := by
  have := extract_eq d hd neg a [] ha (by simp) ha0 false
  simpa using this

/-- On a configuration whose group-separator escape is an identity escape,
stripping leaves a digit string unchanged. -/
theorem stripGroup_digits {g : Char} (hgd : ¬g.isDigit)
    (hglit : isSpecialEscape g = false) {l : List Char}
    (hl : ∀ c ∈ l, c.isDigit) : stripGroup g l = l := by
  rw [stripGroup_eq_removeAll hglit]
  exact List.filter_eq_self.mpr fun c hc => by
    simpa using ne_of_isDigit_of_not (hl c hc) hgd

/-- Reduction of `Except.bind` on a success value. -/
theorem ok_bind {α β : Type} (a : α) (f : α → Except Unit β) :
    (Except.ok a : Except Unit α).bind f = f a := rfl

/-- Evaluation of `toNumber` on a concrete input through its canonical
reassembled string, on a configuration where both regexes act literally. -/
theorem toNumber_concrete_eval (o : Options) (v : List Char)
    (hglit : isSpecialEscape o.groupSeparator = false)
    (hdlit : sepClass o.decimalSeparator = SepClass.literal)
    (neg hasDot : Bool) (a b : List Char)
    (ha : ∀ c ∈ a, c.isDigit) (hb : ∀ c ∈ b, c.isDigit)
    (hb0 : hasDot = false → b = []) (hv : v ≠ [])
    (hcan : canonicalReassembly o v =
      (if neg then ['-'] else []) ++ a ++ (if hasDot then '.' :: b else []))
    (hcond : ¬(a = [] ∧ b = [] ∧ (neg = true ∨ hasDot = true))) :
    toNumber o v = .ok (some ((if neg then -1 else 1) *
      ((digitsVal a : ℚ) + (digitsVal b : ℚ) / 10 ^ b.length))) := by
  rw [toNumber_eq_canonical o hglit hdlit v hv, hcan,
    hostNumber_parts neg hasDot a b ha hb hb0, if_neg hcond]

/-! ### Claims -/

/-- C10: with the default options, `toString` applied to the non-finite
values produces only separator and padding characters: `",00"` for `NaN` and
`Infinity` and `"-,00"` for `-Infinity` — the host representation starts
with no digit, every extracted part except possibly the sign is empty, and
the padding branch still appends the decimal separator and the zeros. -/
theorem toString_nonfinite_default :
    toString defaultOptions .nan = .ok ",00".toList ∧
      toString defaultOptions .inf = .ok ",00".toList ∧
      toString defaultOptions .ninf = .ok "-,00".toList := by decide

/-- C9 (amended: the separators must keep their literal regex meaning): if,
after stripping the group separators, the input starts with a character that
is neither a sign, a digit, nor the decimal separator, then every extracted
part is empty, the reassembled canonical string is empty, and the host
conversion returns 0 rather than the not-a-number sentinel. -/
theorem toNumber_no_match_zero (o : Options) (ho : o.Valid)
    (hlit : o.RegexLiteral) (v : List Char) (c : Char)
    (hc : (stripGroup o.groupSeparator v).head? = some c)
    (h1 : ¬c.isDigit) (h2 : c ≠ '-') (h3 : c ≠ o.decimalSeparator) :
    toNumber o v = .ok (some 0) := by
  obtain ⟨hglit, hdlit⟩ := hlit
  have hv : v ≠ [] := by
    intro h
    subst h
    rw [stripGroup_eq_removeAll hglit] at hc
    simp [removeAllChar] at hc
  obtain ⟨t, hstr⟩ : ∃ t, stripGroup o.groupSeparator v = c :: t := by
    cases hs : stripGroup o.groupSeparator v with
    | nil => rw [hs] at hc; simp at hc
    | cons c' t =>
        rw [hs] at hc
        simp at hc
        exact ⟨t, by rw [hc]⟩
  have hext : extract o.decimalSeparator (c :: t) = ⟨[], [], [], []⟩ := by
    have hnd : ¬(Char.isDigit c = true) := h1
    simp [extract, List.takeWhile_cons_of_neg hnd,
      List.dropWhile_cons_of_neg hnd, h2, h3]
  unfold toNumber
  rw [if_neg hv, hstr, matchExtract_literal hdlit, hext]
  simp [hostNumber]

/-- C9 counterexample: with the valid configuration `decimalSeparator = '^'`
the class `[^]` matches any character, so `toNumber "a"` captures `'a'` as
the separator, reassembles `"."` and returns the not-a-number sentinel, not
0, although `'a'` is neither a sign, a digit, nor the separator. -/
theorem toNumber_no_match_zero_cex :
    Options.Valid ⟨2, ' ', '^'⟩ ∧
      (stripGroup ' ' "a".toList).head? = some 'a' ∧
      ¬('a' : Char).isDigit ∧ ('a' : Char) ≠ '-' ∧ ('a' : Char) ≠ '^' ∧
      toNumber ⟨2, ' ', '^'⟩ "a".toList ≠ .ok (some 0) := by decide

/-- C9 witness: `toNumber "abc" = 0` with the default options. -/
theorem toNumber_no_match_zero_witness :
    Options.Valid defaultOptions ∧ Options.RegexLiteral defaultOptions ∧
      (stripGroup defaultOptions.groupSeparator "abc".toList).head? =
        some 'a' ∧
      ¬('a' : Char).isDigit ∧ ('a' : Char) ≠ '-' ∧
      ('a' : Char) ≠ defaultOptions.decimalSeparator ∧
      toNumber defaultOptions "abc".toList = .ok (some 0) :=
  ⟨by decide, by decide, by decide, by decide, by decide, by decide,
    toNumber_no_match_zero defaultOptions (by decide) (by decide)
      "abc".toList 'a' (by decide) (by decide) (by decide) (by decide)⟩

/-- C3 (amended: the separators must keep their literal regex meaning): the
format of negative zero is a string with a leading negative marker, and the
format of positive zero is a string without one. -/
theorem toString_zero_signs (o : Options) (ho : o.Valid)
    (hlit : o.RegexLiteral) :
    (∃ s, toString o (.fin ⟨true, ['0'], []⟩) = .ok s ∧
      s.head? = some '-') ∧
    (∃ s, toString o (.fin ⟨false, ['0'], []⟩) = .ok s ∧
      s.head? ≠ some '-') := by
  obtain ⟨hglit, hdlit⟩ := hlit
  have hstrip0 : stripGroup o.groupSeparator ['0'] = ['0'] :=
    stripGroup_digits ho.1 hglit (by decide)
  have h1 := toString_fin o ho hdlit ⟨true, ['0'], []⟩ (by decide)
  have h2 := toString_fin o ho hdlit ⟨false, ['0'], []⟩ (by decide)
  rw [hstrip0] at h1 h2
  obtain ⟨gc, gt, hGeq, hgdig⟩ :=
    setGroupSeparators_head_isDigit o.groupSeparator ho.1 ['0']
      (by decide) (by decide)
  constructor
  · refine ⟨_, h1, ?_⟩
    simp
  · refine ⟨_, h2, ?_⟩
    simp [hGeq, ne_dash_of_isDigit hgdig]

/-- C3 counterexample: with the valid configuration `decimalSeparator = ']'`
the extraction pattern contains the unmatchable class `[]`, the match is
null and `toString` throws even on negative zero; and with the valid
configuration `groupSeparator = 'd'`, `decimalSeparator = '-'`, the digits
of positive zero are stripped by `/\d/g` and the output `"-00"` carries a
leading negative marker although the value is positive zero. -/
theorem toString_zero_signs_cex :
    Options.Valid ⟨2, ' ', ']'⟩ ∧
      toString ⟨2, ' ', ']'⟩ (.fin ⟨true, ['0'], []⟩) = .error () ∧
      Options.Valid ⟨2, 'd', '-'⟩ ∧
      toString ⟨2, 'd', '-'⟩ (.fin ⟨false, ['0'], []⟩) =
        .ok "-00".toList := by decide

/-- C3 witness: the zero signs at the default options. -/
theorem toString_zero_signs_witness :
    Options.Valid defaultOptions ∧ Options.RegexLiteral defaultOptions ∧
      ((∃ s, toString defaultOptions (.fin ⟨true, ['0'], []⟩) = .ok s ∧
          s.head? = some '-') ∧
        (∃ s, toString defaultOptions (.fin ⟨false, ['0'], []⟩) = .ok s ∧
          s.head? ≠ some '-')) :=
  ⟨by decide, by decide,
    toString_zero_signs defaultOptions (by decide) (by decide)⟩

/-- C4 (amended: the separators must keep their literal regex meaning): when
the host representation already carries at least `precision` fraction
digits, or the precision is zero, `toString` passes the separator and the
fraction digits through unchanged — no rounding and no truncation to
`precision`. -/
theorem toString_passthrough (o : Options) (ho : o.Valid)
    (hlit : o.RegexLiteral) (x : Dec) (hx : x.WF)
    (hp : o.precision ≤ x.fracDigits.length ∨ o.precision = 0) :
    toString o (.fin x) =
      .ok ((if x.neg then ['-'] else []) ++
        setGroupSeparators o.groupSeparator x.intDigits ++
        ((if x.fracDigits ≠ [] then [o.decimalSeparator] else []) ++
          x.fracDigits)) := by
  have hcond : ¬(o.precision ≠ 0 ∧ x.fracDigits.length < o.precision) := by
    rintro ⟨hp0, hlt⟩
    rcases hp with h | h
    · omega
    · exact hp0 h
  have hstrip : stripGroup o.groupSeparator x.intDigits = x.intDigits :=
    stripGroup_digits ho.1 hlit.1 hx.2.1
  rw [toString_fin o ho hlit.2 x hx, hstrip, if_neg hcond]

/-- C4 counterexample: with the valid configuration `decimalSeparator = ']'`
the match is null and `toString 1.2345` throws instead of emitting the
fraction; and with the valid configuration `groupSeparator = 'd'` the
integer digits are stripped by `/\d/g`, so the output is `",2345"` — the
claimed shape with the host integer digits does not hold over every valid
configuration. -/
theorem toString_passthrough_cex :
    Options.Valid ⟨2, ' ', ']'⟩ ∧ Dec.WF ⟨false, ['1'], "2345".toList⟩ ∧
      toString ⟨2, ' ', ']'⟩ (.fin ⟨false, ['1'], "2345".toList⟩) =
        .error () ∧
      Options.Valid ⟨2, 'd', ','⟩ ∧
      toString ⟨2, 'd', ','⟩ (.fin ⟨false, ['1'], "2345".toList⟩) =
        .ok ",2345".toList := by decide

/-- C4 witness: with precision 2, formatting 1.2345 keeps all four fraction
digits: the output is `"1,2345"`. -/
theorem toString_passthrough_witness :
    Options.Valid defaultOptions ∧ Options.RegexLiteral defaultOptions ∧
      Dec.WF ⟨false, ['1'], "2345".toList⟩ ∧
      (defaultOptions.precision ≤
          (⟨false, ['1'], "2345".toList⟩ : Dec).fracDigits.length ∨
        defaultOptions.precision = 0) ∧
      toString defaultOptions (.fin ⟨false, ['1'], "2345".toList⟩) =
        .ok "1,2345".toList :=
  ⟨by decide, by decide, by decide, Or.inl (by decide),
    (toString_passthrough defaultOptions (by decide) (by decide) _
      (by decide) (Or.inl (by decide))).trans (by decide)⟩

/-- C5 (amended: the separators must keep their literal regex meaning): when
`precision > 0` and the fraction of the host representation is shorter than
`precision`, `toString` emits the decimal separator and the fraction
right-padded with zeros to exactly `precision` digits, even when the
fraction is empty. -/
theorem toString_pads_short_fraction (o : Options) (ho : o.Valid)
    (hlit : o.RegexLiteral) (x : Dec) (hx : x.WF) (h0 : 0 < o.precision)
    (hlt : x.fracDigits.length < o.precision) :
    toString o (.fin x) =
      .ok ((if x.neg then ['-'] else []) ++
        setGroupSeparators o.groupSeparator x.intDigits ++
        (o.decimalSeparator :: (x.fracDigits ++
          List.replicate (o.precision - x.fracDigits.length) '0'))) := by
  have hcond : o.precision ≠ 0 ∧ x.fracDigits.length < o.precision :=
    ⟨by omega, hlt⟩
  have hstrip : stripGroup o.groupSeparator x.intDigits = x.intDigits :=
    stripGroup_digits ho.1 hlit.1 hx.2.1
  rw [toString_fin o ho hlit.2 x hx, hstrip, if_pos hcond]

/-- C5 counterexample: with the valid configuration `decimalSeparator = ']'`
the match is null and `toString 123` throws instead of emitting the padded
fraction; and with the valid configuration `groupSeparator = 'd'` the
integer digits are stripped, giving `",00"` rather than the claimed shape
with the host integer digits. -/
theorem toString_pads_short_fraction_cex :
    Options.Valid ⟨2, ' ', ']'⟩ ∧ Dec.WF ⟨false, "123".toList, []⟩ ∧
      toString ⟨2, ' ', ']'⟩ (.fin ⟨false, "123".toList, []⟩) = .error () ∧
      Options.Valid ⟨2, 'd', ','⟩ ∧
      toString ⟨2, 'd', ','⟩ (.fin ⟨false, "123".toList, []⟩) =
        .ok ",00".toList := by decide

/-- C5 witness: with the default options, `toString 123 = "123,00"`. -/
theorem toString_pads_short_fraction_witness :
    Options.Valid defaultOptions ∧ Options.RegexLiteral defaultOptions ∧
      Dec.WF ⟨false, "123".toList, []⟩ ∧ 0 < defaultOptions.precision ∧
      (⟨false, "123".toList, []⟩ : Dec).fracDigits.length <
        defaultOptions.precision ∧
      toString defaultOptions (.fin ⟨false, "123".toList, []⟩) =
        .ok "123,00".toList :=
  ⟨by decide, by decide, by decide, by decide, by decide,
    (toString_pads_short_fraction defaultOptions (by decide) (by decide) _
      (by decide) (by decide) (by decide)).trans (by decide)⟩

/-- C8 (amended: the separators must keep their literal regex meaning):
`toString` succeeds on every finite representable number, and its output
consists only of ASCII digits, the two configured separator characters and
the negative marker, the latter occurring (when it is not itself a
separator) only as the leading character. -/
theorem toString_output_charset (o : Options) (ho : o.Valid)
    (hlit : o.RegexLiteral) (x : Dec) (hx : x.WF) :
    ∃ s, toString o (.fin x) = .ok s ∧
      (∀ c ∈ s,
        c.isDigit ∨ c = o.groupSeparator ∨ c = o.decimalSeparator ∨ c = '-') ∧
      (o.groupSeparator ≠ '-' → o.decimalSeparator ≠ '-' →
        ∀ c ∈ s.drop 1, c ≠ '-') := by
  have hstripI : stripGroup o.groupSeparator x.intDigits = x.intDigits :=
    stripGroup_digits ho.1 hlit.1 hx.2.1
  have hfin := toString_fin o ho hlit.2 x hx
  rw [hstripI] at hfin
  have hgd := ho.1
  have hidig := hx.2.1
  have hfdig := hx.2.2.2.1
  have hGmem : ∀ c ∈ setGroupSeparators o.groupSeparator x.intDigits,
      c.isDigit ∨ c = o.groupSeparator := by
    intro c hc
    rcases setGroupSeparators_mem o.groupSeparator hgd x.intDigits hidig c hc
      with h | h
    · exact Or.inl (hidig c h)
    · exact Or.inr h
  have hFmem : ∀ c ∈ (if o.precision ≠ 0 ∧ x.fracDigits.length < o.precision
      then o.decimalSeparator :: (x.fracDigits ++
        List.replicate (o.precision - x.fracDigits.length) '0')
      else (if x.fracDigits ≠ [] then [o.decimalSeparator] else []) ++
        x.fracDigits),
      c.isDigit ∨ c = o.decimalSeparator := by
    intro c hc
    by_cases hp : o.precision ≠ 0 ∧ x.fracDigits.length < o.precision
    · rw [if_pos hp] at hc
      rcases List.mem_cons.mp hc with h | h
      · exact Or.inr h
      · rcases List.mem_append.mp h with h | h
        · exact Or.inl (hfdig c h)
        · rw [List.eq_of_mem_replicate h]
          exact Or.inl (by decide)
    · rw [if_neg hp] at hc
      rcases List.mem_append.mp hc with h | h
      · by_cases hf : x.fracDigits = []
        · rw [if_neg (by simpa using hf)] at h
          simp at h
        · rw [if_pos (by simpa using hf)] at h
          simp at h
          exact Or.inr h
      · exact Or.inl (hfdig c h)
  refine ⟨_, hfin, ?_, ?_⟩
  · intro c hc
    rcases List.mem_append.mp hc with hc | hc
    · rcases List.mem_append.mp hc with hc | hc
      · cases hneg : x.neg <;> rw [hneg] at hc
        · simp at hc
        · simp at hc
          exact Or.inr (Or.inr (Or.inr hc))
      · rcases hGmem c hc with h | h
        · exact Or.inl h
        · exact Or.inr (Or.inl h)
    · rcases hFmem c hc with h | h
      · exact Or.inl h
      · exact Or.inr (Or.inr (Or.inl h))
  · intro hgdash hddash c hc
    have hGF : ∀ c' ∈ setGroupSeparators o.groupSeparator x.intDigits ++
        (if o.precision ≠ 0 ∧ x.fracDigits.length < o.precision
          then o.decimalSeparator :: (x.fracDigits ++
            List.replicate (o.precision - x.fracDigits.length) '0')
          else (if x.fracDigits ≠ [] then [o.decimalSeparator] else []) ++
            x.fracDigits), c' ≠ '-' := by
      intro c' hc'
      rcases List.mem_append.mp hc' with h | h
      · rcases hGmem c' h with h' | h'
        · exact ne_dash_of_isDigit h'
        · exact h' ▸ hgdash
      · rcases hFmem c' h with h' | h'
        · exact ne_dash_of_isDigit h'
        · exact h' ▸ hddash
    cases hneg : x.neg <;> rw [hneg] at hc
    · -- no sign: the whole drop is contained in the grouped and fraction parts
      refine hGF c (List.drop_subset 1 _ ?_)
      simpa using hc
    · -- leading sign: dropping one character leaves the grouped and fraction parts
      refine hGF c ?_
      simpa using hc

/-- C8 counterexample: with the valid configuration `decimalSeparator = ']'`
the extraction pattern contains the unmatchable empty class `[]`, the match
is null and `toString` throws on the finite number -9873.1, so `toString`
is not exception-free over every valid configuration. -/
theorem toString_output_charset_cex :
    Options.Valid ⟨2, ' ', ']'⟩ ∧ Dec.WF ⟨true, "9873".toList, "1".toList⟩ ∧
      toString ⟨2, ' ', ']'⟩ (.fin ⟨true, "9873".toList, "1".toList⟩) =
        .error () := by decide

/-- C8 witness: the output character set at -9873.1 with the default
options. -/
theorem toString_output_charset_witness :
    Options.Valid defaultOptions ∧ Options.RegexLiteral defaultOptions ∧
      Dec.WF ⟨true, "9873".toList, "1".toList⟩ ∧
      (∃ s, toString defaultOptions
          (.fin ⟨true, "9873".toList, "1".toList⟩) = .ok s ∧
        (∀ c ∈ s, c.isDigit ∨ c = defaultOptions.groupSeparator ∨
          c = defaultOptions.decimalSeparator ∨ c = '-') ∧
        (defaultOptions.groupSeparator ≠ '-' →
          defaultOptions.decimalSeparator ≠ '-' →
          ∀ c ∈ s.drop 1, c ≠ '-')) :=
  ⟨by decide, by decide, by decide,
    toString_output_charset defaultOptions (by decide) (by decide) _
      (by decide)⟩

/-- C6 (amended: the integer-recovery conjunct holds on the configurations
where both regexes act literally): on every non-empty digit string the
grouping step joins the groups of three digits counted from the
least-significant end with the group separator, never yields a leading
separator, and removing the separators recovers the digits; accordingly the
integer portion of `toString`'s output (after the sign and before the
decimal separator), stripped of group separators, is exactly the integer
digits of the host representation. -/
theorem setGroupSeparators_grouping (o : Options) (ho : o.Valid)
    (l : List Char) (h0 : l ≠ []) (hl : ∀ c ∈ l, c.isDigit) :
    setGroupSeparators o.groupSeparator l =
        joinWith o.groupSeparator (chunksRight3 l) ∧
      (setGroupSeparators o.groupSeparator l).head? ≠ some o.groupSeparator ∧
      (setGroupSeparators o.groupSeparator l).filter (· ≠ o.groupSeparator) = l ∧
      (∀ x : Dec, x.WF → o.RegexLiteral → o.decimalSeparator ≠ '-' →
        ∀ s, toString o (.fin x) = .ok s →
          removeAllChar o.groupSeparator
              ((s.takeWhile (· ≠ o.decimalSeparator)).dropWhile (· = '-')) =
            x.intDigits) := by
  have hgd := ho.1
  have hdd := ho.2.1
  have hgdne := ho.2.2
  obtain ⟨gc, gt, hGeq, hgdig⟩ :=
    setGroupSeparators_head_isDigit o.groupSeparator hgd l hl h0
  refine ⟨setGroupSeparators_spec o.groupSeparator hgd l hl h0, ?_,
    setGroupSeparators_filter o.groupSeparator hgd l hl, ?_⟩
  · rw [hGeq]
    simp only [List.head?_cons, ne_eq, Option.some.injEq]
    exact ne_of_isDigit_of_not hgdig hgd
  · intro x hx hlit hddash s hs
    have hstripI : stripGroup o.groupSeparator x.intDigits = x.intDigits :=
      stripGroup_digits hgd hlit.1 hx.2.1
    have hfin := toString_fin o ho hlit.2 x hx
    rw [hstripI] at hfin
    rw [hs] at hfin
    injection hfin with heq
    subst heq
    obtain ⟨gcx, gtx, hGx, hgdx⟩ :=
      setGroupSeparators_head_isDigit o.groupSeparator hgd x.intDigits
        hx.2.1 hx.1
    -- the sign and the grouped integer digits survive `takeWhile (· ≠ d)`
    have hkeep : ∀ c ∈ (if x.neg then ['-'] else []) ++
        setGroupSeparators o.groupSeparator x.intDigits,
        (decide (c ≠ o.decimalSeparator)) = true := by
      intro c hc
      rcases List.mem_append.mp hc with h | h
      · cases hneg : x.neg <;> rw [hneg] at h
        · simp at h
        · simp at h
          subst h
          simpa using fun h' => hddash h'.symm
      · rcases setGroupSeparators_mem o.groupSeparator hgd x.intDigits
          hx.2.1 c h with h' | h'
        · simpa using ne_of_isDigit_of_not (hx.2.1 c h') hdd
        · simpa using h' ▸ hgdne
    have htake : (((if x.neg then ['-'] else []) ++
        setGroupSeparators o.groupSeparator x.intDigits) ++
        (if o.precision ≠ 0 ∧ x.fracDigits.length < o.precision
          then o.decimalSeparator :: (x.fracDigits ++
            List.replicate (o.precision - x.fracDigits.length) '0')
          else (if x.fracDigits ≠ [] then [o.decimalSeparator] else []) ++
            x.fracDigits)).takeWhile (· ≠ o.decimalSeparator) =
        (if x.neg then ['-'] else []) ++
          setGroupSeparators o.groupSeparator x.intDigits := by
      rw [takeWhile_append_all _ hkeep]
      have hrest : (if o.precision ≠ 0 ∧ x.fracDigits.length < o.precision
          then o.decimalSeparator :: (x.fracDigits ++
            List.replicate (o.precision - x.fracDigits.length) '0')
          else (if x.fracDigits ≠ [] then [o.decimalSeparator] else []) ++
            x.fracDigits).takeWhile (· ≠ o.decimalSeparator) = [] := by
        by_cases hp : o.precision ≠ 0 ∧ x.fracDigits.length < o.precision
        · rw [if_pos hp]
          exact List.takeWhile_cons_of_neg (by simp)
        · rw [if_neg hp]
          by_cases hf : x.fracDigits = []
          · rw [if_neg (by simpa using hf), hf]
            rfl
          · rw [if_pos (by simpa using hf)]
            exact List.takeWhile_cons_of_neg (by simp)
      rw [hrest, List.append_nil]
    rw [htake]
    cases hneg : x.neg
    · rw [show ((if false = true then ['-'] else []) : List Char) = []
        from rfl, List.nil_append, hGx,
        List.dropWhile_cons_of_neg (by simpa using ne_dash_of_isDigit hgdx)]
      rw [← hGx]
      exact setGroupSeparators_filter o.groupSeparator hgd x.intDigits hx.2.1
    · rw [show ((if true = true then ['-'] else []) : List Char) = ['-']
        from rfl, List.singleton_append,
        List.dropWhile_cons_of_pos (by simp), hGx,
        List.dropWhile_cons_of_neg (by simpa using ne_dash_of_isDigit hgdx)]
      rw [← hGx]
      exact setGroupSeparators_filter o.groupSeparator hgd x.intDigits hx.2.1

/-- C6 counterexample: with the valid configuration `groupSeparator = 'd'`
the stripping regex is `/\d/g`, which deletes the integer digits; the
integer portion of `toString 123`'s output, stripped of group separators,
is empty rather than the host integer digits `"123"`. -/
theorem setGroupSeparators_grouping_cex :
    Options.Valid ⟨2, 'd', ','⟩ ∧ Dec.WF ⟨false, "123".toList, []⟩ ∧
      (',' : Char) ≠ '-' ∧
      toString ⟨2, 'd', ','⟩ (.fin ⟨false, "123".toList, []⟩) =
        .ok ",00".toList ∧
      removeAllChar 'd'
          ((((",00".toList)).takeWhile (· ≠ ',')).dropWhile (· = '-')) ≠
        "123".toList := by decide

/-- C6 witness: grouping `"1234567"` with the default options yields
`"1 234 567"`, and the integer portion of `toString 100000.12`, stripped of
group separators, is `"100000"`. -/
theorem setGroupSeparators_grouping_witness :
    Options.Valid defaultOptions ∧ "1234567".toList ≠ ([] : List Char) ∧
      (∀ c ∈ "1234567".toList, c.isDigit) ∧
      setGroupSeparators defaultOptions.groupSeparator "1234567".toList =
        "1 234 567".toList ∧
      removeAllChar defaultOptions.groupSeparator
          ((("100 000,12".toList).takeWhile
            (· ≠ defaultOptions.decimalSeparator)).dropWhile (· = '-')) =
        "100000".toList := by
  refine ⟨by decide, by decide, by decide, ?_, ?_⟩
  · exact ((setGroupSeparators_grouping defaultOptions (by decide)
      "1234567".toList (by decide) (by decide)).1).trans (by decide)
  · exact (setGroupSeparators_grouping defaultOptions (by decide)
      "1234567".toList (by decide) (by decide)).2.2.2
      ⟨false, "100000".toList, "12".toList⟩ (by decide) (by decide)
      (by decide) "100 000,12".toList (by decide)

/-- C2 (amended: the separators must keep their literal regex meaning, and
the no-digit inputs that matched neither a sign nor a separator parse to 0):
`toNumber` never raises and returns the not-a-number sentinel exactly when
the input is the empty string, or the decomposition finds no digits at all
but did match a sign or a decimal separator. -/
theorem toNumber_nan_iff (o : Options) (ho : o.Valid)
    (hlit : o.RegexLiteral) (v : List Char) :
    toNumber o v ≠ .error () ∧
      (toNumber o v = .ok none ↔
        v = [] ∨
          ((extract o.decimalSeparator
              (stripGroup o.groupSeparator v)).integer = [] ∧
            (extract o.decimalSeparator
              (stripGroup o.groupSeparator v)).fraction = [] ∧
            ((extract o.decimalSeparator
                (stripGroup o.groupSeparator v)).sign ≠ [] ∨
              (extract o.decimalSeparator
                (stripGroup o.groupSeparator v)).separator ≠ []))) := by
  rw [stripGroup_eq_removeAll hlit.1]
  by_cases hv : v = []
  · subst hv
    constructor
    · simp [toNumber]
    · simp [toNumber]
  · rw [toNumber_eq_canonical o hlit.1 hlit.2 v hv]
    refine ⟨by simp, ?_⟩
    simp only [Except.ok.injEq]
    simp only [canonicalReassembly, hv, false_or]
    have hidig := extract_integer_digits o.decimalSeparator
      (removeAllChar o.groupSeparator v)
    have hfdig := extract_fraction_digits o.decimalSeparator
      (removeAllChar o.groupSeparator v)
    have hsf := extract_separator_nil_fraction o.decimalSeparator
      (removeAllChar o.groupSeparator v)
    rcases extract_sign_cases o.decimalSeparator
      (removeAllChar o.groupSeparator v) with h1 | h1 <;>
      by_cases h2 : (extract o.decimalSeparator
        (removeAllChar o.groupSeparator v)).separator = []
    · -- no sign, no separator: fraction is empty, canonical = integer digits
      have h3 := hsf h2
      rw [h1, h2, h3]
      have hHN := hostNumber_parts false false
        (extract o.decimalSeparator (removeAllChar o.groupSeparator v)).integer
        [] hidig (by simp) (fun _ => rfl)
      simp at hHN ⊢
      simp [hHN]
    · -- no sign, separator present
      rw [h1]
      rw [if_pos (by simpa using h2)]
      have hHN := hostNumber_parts false true
        (extract o.decimalSeparator (removeAllChar o.groupSeparator v)).integer
        (extract o.decimalSeparator (removeAllChar o.groupSeparator v)).fraction
        hidig hfdig (by simp)
      simp [h2] at hHN ⊢
      rw [hHN]
      by_cases hif : (extract o.decimalSeparator
            (removeAllChar o.groupSeparator v)).integer = [] ∧
          (extract o.decimalSeparator
            (removeAllChar o.groupSeparator v)).fraction = []
      · simp [hif.1, hif.2]
      · rw [if_neg hif]
        simp only [ne_eq, reduceCtorEq, false_iff]
        intro hcon
        exact hif ⟨hcon.1, hcon.2⟩
    · -- sign present, no separator
      have h3 := hsf h2
      rw [h1, h2, h3]
      have hHN := hostNumber_parts true false
        (extract o.decimalSeparator (removeAllChar o.groupSeparator v)).integer
        [] hidig (by simp) (fun _ => rfl)
      simp at hHN ⊢
      rw [hHN]
      by_cases hint : (extract o.decimalSeparator
          (removeAllChar o.groupSeparator v)).integer = []
      · simp [hint]
      · simp [hint]
    · -- sign and separator present
      rw [h1, if_pos (by simpa using h2)]
      have hHN := hostNumber_parts true true
        (extract o.decimalSeparator (removeAllChar o.groupSeparator v)).integer
        (extract o.decimalSeparator (removeAllChar o.groupSeparator v)).fraction
        hidig hfdig (by simp)
      simp [h2] at hHN ⊢
      rw [hHN]
      by_cases hif : (extract o.decimalSeparator
            (removeAllChar o.groupSeparator v)).integer = [] ∧
          (extract o.decimalSeparator
            (removeAllChar o.groupSeparator v)).fraction = []
      · simp [hif.1, hif.2]
      · rw [if_neg hif]
        simp only [ne_eq, reduceCtorEq, false_iff]
        intro hcon
        exact hif ⟨hcon.1, hcon.2⟩

/-- C2 counterexample: `"abc"` is non-empty and decomposes to no digits at
all, yet with the default options `toNumber` returns 0, not the
not-a-number sentinel; and with the valid configuration
`decimalSeparator = ']'` the null match makes `toNumber "5"` throw before
the try block, so `toNumber` is not exception-free over every valid
configuration. -/
theorem toNumber_nan_iff_cex :
    "abc".toList ≠ ([] : List Char) ∧
      (extract ',' (stripGroup ' ' "abc".toList)).integer = [] ∧
      (extract ',' (stripGroup ' ' "abc".toList)).fraction = [] ∧
      toNumber defaultOptions "abc".toList = .ok (some 0) ∧
      Options.Valid ⟨2, ' ', ']'⟩ ∧
      toNumber ⟨2, ' ', ']'⟩ "5".toList = .error () := by decide

/-- C2 witness: the characterization applied to the input `"-"` with the
default options. -/
theorem toNumber_nan_iff_witness :
    Options.Valid defaultOptions ∧ Options.RegexLiteral defaultOptions ∧
      (toNumber defaultOptions "-".toList ≠ .error () ∧
        (toNumber defaultOptions "-".toList = .ok none ↔
          "-".toList = [] ∨
            ((extract defaultOptions.decimalSeparator
                (stripGroup defaultOptions.groupSeparator
                  "-".toList)).integer = [] ∧
              (extract defaultOptions.decimalSeparator
                (stripGroup defaultOptions.groupSeparator
                  "-".toList)).fraction = [] ∧
              ((extract defaultOptions.decimalSeparator
                  (stripGroup defaultOptions.groupSeparator
                    "-".toList)).sign ≠ [] ∨
                (extract defaultOptions.decimalSeparator
                  (stripGroup defaultOptions.groupSeparator
                    "-".toList)).separator ≠ [])))) :=
  ⟨by decide, by decide,
    toNumber_nan_iff defaultOptions (by decide) (by decide) "-".toList⟩

/-- C7 (amended: non-empty input, and the separators must keep their literal
regex meaning): `toNumber` strips exactly the occurrences of the group
separator, decomposes the remainder into sign, integer digits, at most one
decimal separator and fraction digits, reassembles the canonical decimal
string and returns its host conversion; with default options
`"100 000,12"` parses to 100000.12 and `"-9 873,10"` to -9873.1. -/
theorem toNumber_strip_decompose_reassemble (o : Options) (ho : o.Valid)
    (hlit : o.RegexLiteral) (v : List Char) (hv : v ≠ []) :
    toNumber o v = .ok (hostNumber (canonicalReassembly o v)) ∧
      toNumber defaultOptions "100 000,12".toList =
        .ok (some (10000012 / 100 : ℚ)) ∧
      toNumber defaultOptions "-9 873,10".toList =
        .ok (some (-(98731 / 10) : ℚ)) := by
  refine ⟨toNumber_eq_canonical o hlit.1 hlit.2 v hv, ?_, ?_⟩
  · have h := toNumber_concrete_eval defaultOptions "100 000,12".toList
      (by decide) (by decide) false true "100000".toList "12".toList
      (by decide) (by decide) (by simp) (by decide) (by decide) (by decide)
    rw [show digitsVal "100000".toList = 100000 from by decide,
      show digitsVal "12".toList = 12 from by decide,
      show ("12".toList).length = 2 from by decide] at h
    refine h.trans ?_
    simp only [Except.ok.injEq, Option.some.injEq]
    norm_num
  · have h := toNumber_concrete_eval defaultOptions "-9 873,10".toList
      (by decide) (by decide) true true "9873".toList "10".toList
      (by decide) (by decide) (by simp) (by decide) (by decide) (by decide)
    rw [show digitsVal "9873".toList = 9873 from by decide,
      show digitsVal "10".toList = 10 from by decide,
      show ("10".toList).length = 2 from by decide] at h
    refine h.trans ?_
    simp only [Except.ok.injEq, Option.some.injEq]
    norm_num

/-- C7 counterexample: on the empty string, `toNumber` does not return the
host conversion of the reassembled canonical string (which would be 0) but
the not-a-number sentinel first; the real stripping regex for
`groupSeparator = 'n'` is `/\n/g`, which removes newlines rather than the
letter `'n'`; and with the valid configuration `decimalSeparator = ']'` the
pipeline throws instead of returning a host parse. -/
theorem toNumber_strip_decompose_reassemble_cex :
    toNumber defaultOptions [] ≠
        .ok (hostNumber (canonicalReassembly defaultOptions [])) ∧
      stripGroup 'n' "1n2".toList ≠ removeAllChar 'n' "1n2".toList ∧
      Options.Valid ⟨2, 'n', ','⟩ ∧
      Options.Valid ⟨2, ' ', ']'⟩ ∧
      toNumber ⟨2, ' ', ']'⟩ "1".toList = .error () := by decide

/-- C7 witness: the pipeline equality at the input `"1"` with the default
options, together with the two concrete parses. -/
theorem toNumber_strip_decompose_reassemble_witness :
    Options.Valid defaultOptions ∧ Options.RegexLiteral defaultOptions ∧
      "1".toList ≠ ([] : List Char) ∧
      (toNumber defaultOptions "1".toList =
          .ok (hostNumber (canonicalReassembly defaultOptions "1".toList)) ∧
        toNumber defaultOptions "100 000,12".toList =
          .ok (some (10000012 / 100 : ℚ)) ∧
        toNumber defaultOptions "-9 873,10".toList =
          .ok (some (-(98731 / 10) : ℚ))) :=
  ⟨by decide, by decide, by decide,
    toNumber_strip_decompose_reassemble defaultOptions (by decide)
      (by decide) "1".toList (by decide)⟩

/-- C1 (amended: the separators must keep their literal regex meaning and
the group separator must differ from the sign marker `'-'`, both of which
the original claim's configurations allowed): for every well-formed finite
decimal representation whose fraction has at most `precision` digits,
parsing the formatted output recovers the value. -/
theorem parse_format_roundtrip (o : Options) (ho : o.Valid)
    (hlit : o.RegexLiteral) (hg : o.groupSeparator ≠ '-') (x : Dec)
    (hx : x.WF) (hp : x.fracDigits.length ≤ o.precision) :
    (toString o (.fin x)).bind (toNumber o) = .ok (some x.val) := by
  have hstripI : stripGroup o.groupSeparator x.intDigits = x.intDigits :=
    stripGroup_digits ho.1 hlit.1 hx.2.1
  rw [toString_fin o ho hlit.2 x hx, hstripI, ok_bind]
  have hgd := ho.1
  have hdd := ho.2.1
  have hgdne := ho.2.2
  have hine := hx.1
  have hidig := hx.2.1
  have hfdig := hx.2.2.2.1
  have hGfilt : (setGroupSeparators o.groupSeparator x.intDigits).filter
      (· ≠ o.groupSeparator) = x.intDigits :=
    setGroupSeparators_filter o.groupSeparator hgd x.intDigits hidig
  obtain ⟨gc, gt, hGeq, hgdig⟩ :=
    setGroupSeparators_head_isDigit o.groupSeparator hgd x.intDigits hidig hine
  have hsgn_f : ∀ z : Bool, ((if z then ['-'] else []) : List Char).filter
      (· ≠ o.groupSeparator) = (if z then ['-'] else []) := by
    intro z
    cases z
    · rfl
    · show List.filter (· ≠ o.groupSeparator) ['-'] = ['-']
      simp [Ne.symm hg]
  by_cases hp1 : o.precision ≠ 0 ∧ x.fracDigits.length < o.precision
  · -- padding branch
    rw [if_pos hp1]
    set k := o.precision - x.fracDigits.length with hk
    have hbdig : ∀ c ∈ x.fracDigits ++ List.replicate k '0', c.isDigit := by
      intro c hc
      rcases List.mem_append.mp hc with h | h
      · exact hfdig c h
      · rw [List.eq_of_mem_replicate h]; decide
    have hfb : List.filter (· ≠ o.groupSeparator)
        (x.fracDigits ++ List.replicate k '0') =
        x.fracDigits ++ List.replicate k '0' :=
      List.filter_eq_self.mpr fun c hc => by
        simpa using ne_of_isDigit_of_not (hbdig c hc) hgd
    have hout : ((if x.neg then ['-'] else []) ++
        setGroupSeparators o.groupSeparator x.intDigits ++
        (o.decimalSeparator :: (x.fracDigits ++ List.replicate k '0'))) ≠ [] := by
      simp
    rw [toNumber_eq_canonical o hlit.1 hlit.2 _ hout]
    have hstrip : removeAllChar o.groupSeparator
        ((if x.neg then ['-'] else []) ++
          setGroupSeparators o.groupSeparator x.intDigits ++
          (o.decimalSeparator :: (x.fracDigits ++ List.replicate k '0'))) =
        (if x.neg then ['-'] else []) ++ x.intDigits ++
          (o.decimalSeparator :: (x.fracDigits ++ List.replicate k '0')) := by
      unfold removeAllChar
      rw [List.filter_append, List.filter_append, hGfilt, hsgn_f x.neg,
        List.filter_cons_of_pos (by simpa using Ne.symm hgdne), hfb]
    simp only [canonicalReassembly]
    rw [hstrip, extract_eq_sep o.decimalSeparator hdd x.neg x.intDigits
      (x.fracDigits ++ List.replicate k '0') hidig hbdig hine]
    dsimp only
    rw [if_pos (show ([o.decimalSeparator] : List Char) ≠ [] from by simp)]
    have hHN := hostNumber_parts x.neg true x.intDigits
      (x.fracDigits ++ List.replicate k '0') hidig hbdig (by simp)
    simp [hine] at hHN ⊢
    rw [hHN]
    rw [Option.some.injEq, Dec.val]
    have hpad : (digitsVal (x.fracDigits ++ List.replicate k '0') : ℚ) /
        10 ^ (x.fracDigits.length + k) =
        (digitsVal x.fracDigits : ℚ) / 10 ^ x.fracDigits.length := by
      simpa using frac_val_pad x.fracDigits k
    rw [hpad]
    split_ifs <;> ring
  · -- pass-through branch
    rw [if_neg hp1]
    by_cases hfe : x.fracDigits = []
    · have hFnil : ((if x.fracDigits ≠ [] then [o.decimalSeparator] else []) ++
          x.fracDigits) = [] := by simp [hfe]
      rw [hFnil, List.append_nil]
      have hout : ((if x.neg then ['-'] else []) ++
          setGroupSeparators o.groupSeparator x.intDigits) ≠ [] := by
        simp [hGeq]
      rw [toNumber_eq_canonical o hlit.1 hlit.2 _ hout]
      have hstrip : removeAllChar o.groupSeparator
          ((if x.neg then ['-'] else []) ++
            setGroupSeparators o.groupSeparator x.intDigits) =
          (if x.neg then ['-'] else []) ++ x.intDigits := by
        unfold removeAllChar
        rw [List.filter_append, hGfilt, hsgn_f x.neg]
      simp only [canonicalReassembly]
      rw [hstrip, extract_eq_nosep o.decimalSeparator hdd x.neg x.intDigits
        hidig hine]
      dsimp only
      have hHN := hostNumber_parts x.neg false x.intDigits []
        hidig (by simp) (fun _ => rfl)
      simp [hine] at hHN ⊢
      rw [hHN]
      rw [Option.some.injEq, Dec.val, hfe]
      simp only [show digitsVal ([] : List Char) = 0 from rfl, List.length_nil,
        pow_zero, Nat.cast_zero, zero_div, div_one, add_zero, neg_zero,
        zero_add]
      split_ifs <;> ring
    · rw [if_pos (show x.fracDigits ≠ [] from hfe), List.singleton_append]
      have hbdig := hfdig
      have hfb : List.filter (· ≠ o.groupSeparator) x.fracDigits =
          x.fracDigits :=
        List.filter_eq_self.mpr fun c hc => by
          simpa using ne_of_isDigit_of_not (hfdig c hc) hgd
      have hout : ((if x.neg then ['-'] else []) ++
          setGroupSeparators o.groupSeparator x.intDigits ++
          (o.decimalSeparator :: x.fracDigits)) ≠ [] := by
        simp
      rw [toNumber_eq_canonical o hlit.1 hlit.2 _ hout]
      have hstrip : removeAllChar o.groupSeparator
          ((if x.neg then ['-'] else []) ++
            setGroupSeparators o.groupSeparator x.intDigits ++
            (o.decimalSeparator :: x.fracDigits)) =
          (if x.neg then ['-'] else []) ++ x.intDigits ++
            (o.decimalSeparator :: x.fracDigits) := by
        unfold removeAllChar
        rw [List.filter_append, List.filter_append, hGfilt, hsgn_f x.neg,
          List.filter_cons_of_pos (by simpa using Ne.symm hgdne), hfb]
      simp only [canonicalReassembly]
      rw [hstrip, extract_eq_sep o.decimalSeparator hdd x.neg x.intDigits
        x.fracDigits hidig hfdig hine]
      dsimp only
      rw [if_pos (show ([o.decimalSeparator] : List Char) ≠ [] from by simp)]
      have hHN := hostNumber_parts x.neg true x.intDigits x.fracDigits
        hidig hfdig (by simp)
      simp [hine] at hHN ⊢
      rw [hHN]
      rw [Option.some.injEq, Dec.val]
      split_ifs <;> ring

/-- C1 counterexample: with the valid configuration `groupSeparator = '-'`,
`decimalSeparator = ','` the round trip fails on -5, since stripping the
group separator removes the sign; and with the valid configuration
`groupSeparator = 'b'` (distinct from `'-'`) the stripping regex is the
word-boundary `/\b/g`, which removes nothing, so the group separators
inserted by `toString` survive and the round trip on -9873.1 returns -9. -/
theorem parse_format_roundtrip_cex :
    (Options.Valid ⟨2, '-', ','⟩ ∧ Dec.WF ⟨true, ['5'], []⟩ ∧
      (⟨true, ['5'], []⟩ : Dec).fracDigits.length ≤
        (⟨2, '-', ','⟩ : Options).precision ∧
      (toString ⟨2, '-', ','⟩ (.fin ⟨true, ['5'], []⟩)).bind
          (toNumber ⟨2, '-', ','⟩) ≠
        .ok (some (Dec.val ⟨true, ['5'], []⟩))) ∧
    (Options.Valid ⟨2, 'b', ','⟩ ∧
      (⟨2, 'b', ','⟩ : Options).groupSeparator ≠ '-' ∧
      Dec.WF ⟨true, "9873".toList, "1".toList⟩ ∧
      (⟨true, "9873".toList, "1".toList⟩ : Dec).fracDigits.length ≤
        (⟨2, 'b', ','⟩ : Options).precision ∧
      (toString ⟨2, 'b', ','⟩ (.fin ⟨true, "9873".toList, "1".toList⟩)).bind
          (toNumber ⟨2, 'b', ','⟩) ≠
        .ok (some (Dec.val ⟨true, "9873".toList, "1".toList⟩))) := by
  constructor
  · refine ⟨by decide, by decide, by decide, ?_⟩
    rw [show toString ⟨2, '-', ','⟩ (.fin ⟨true, ['5'], []⟩) =
      .ok "-5,00".toList from by decide, ok_bind]
    have h := toNumber_concrete_eval ⟨2, '-', ','⟩ "-5,00".toList (by decide)
      (by decide) false true ['5'] ['0', '0'] (by decide) (by decide)
      (by simp) (by decide) (by decide) (by decide)
    rw [h, show digitsVal ['5'] = 5 from by decide,
      show digitsVal ['0', '0'] = 0 from by decide]
    have hval : Dec.val ⟨true, ['5'], []⟩ = -5 := by
      norm_num [Dec.val, show digitsVal ['5'] = 5 from by decide,
        show digitsVal ([] : List Char) = 0 from rfl]
    rw [hval]
    simp only [ne_eq, Except.ok.injEq, Option.some.injEq]
    norm_num
  · refine ⟨by decide, by decide, by decide, by decide, ?_⟩
    rw [show toString ⟨2, 'b', ','⟩ (.fin ⟨true, "9873".toList, "1".toList⟩) =
      .ok "-9b873,10".toList from by decide, ok_bind]
    have h2 : toNumber ⟨2, 'b', ','⟩ "-9b873,10".toList =
        .ok (hostNumber ['-', '9']) := by
      unfold toNumber
      rw [if_neg (by decide),
        show matchExtract ',' (stripGroup 'b' "-9b873,10".toList) =
          some ⟨['-'], ['9'], [], []⟩ from by decide]
      rfl
    rw [h2]
    have h3 := hostNumber_parts true false ['9'] [] (by decide) (by simp)
      (fun _ => rfl)
    rw [show digitsVal ['9'] = 9 from by decide,
      show digitsVal ([] : List Char) = 0 from rfl] at h3
    simp at h3
    rw [h3]
    have hval : Dec.val ⟨true, "9873".toList, "1".toList⟩ = -(98731 / 10) := by
      norm_num [Dec.val,
        show digitsVal ['9', '8', '7', '3'] = 9873 from by decide,
        show digitsVal ['1'] = 1 from by decide]
    rw [hval]
    simp only [ne_eq, Except.ok.injEq, Option.some.injEq]
    norm_num

/-- C1 witness: the round trip at -9873.1 with the default options. -/
theorem parse_format_roundtrip_witness :
    Options.Valid defaultOptions ∧ Options.RegexLiteral defaultOptions ∧
      defaultOptions.groupSeparator ≠ '-' ∧
      Dec.WF ⟨true, "9873".toList, "1".toList⟩ ∧
      (⟨true, "9873".toList, "1".toList⟩ : Dec).fracDigits.length ≤
        defaultOptions.precision ∧
      (toString defaultOptions
          (.fin ⟨true, "9873".toList, "1".toList⟩)).bind
          (toNumber defaultOptions) =
        .ok (some (Dec.val ⟨true, "9873".toList, "1".toList⟩)) :=
  ⟨by decide, by decide, by decide, by decide, by decide,
    parse_format_roundtrip defaultOptions (by decide) (by decide) (by decide)
      _ (by decide) (by decide)⟩

end NumConv
